import Mathlib

/-!
# Verification of the file_organizer classification & reversible move engine

A shallow embedding of `src/file_organizer` (Python) in Lean 4, together with
theorems settling the specification claims.

Modelling conventions:
* byte sequences are `List Nat` (each element a byte value 0..255);
* filesystem paths are `List String` (path components, as produced by
  `pathlib.Path`; joining a string path drops empty components);
* the filesystem is an association list of file paths to file data plus a
  list of directory paths;
* fallible operations return `Option`; `none` models an uncaught Python
  exception aborting the run;
* machine integers do not occur: all Python ints here are unbounded.
-/

namespace FileOrg

/-! ## Byte-level helpers (struct.unpack_from / slicing) -/

/-- Byte at index `i`, defaulting to 0.  Callers replicate the source's
explicit bounds checks before reading, so the default is never observed. -/
def byteD (b : List Nat) (i : Nat) : Nat := b.getD i 0

/-- `f.read(n)` starting at `pos`: returns at most `n` bytes. -/
def readBytes (b : List Nat) (pos n : Nat) : List Nat := (b.drop pos).take n

inductive Endian where
  | be
  | le
deriving DecidableEq

/-- `struct.unpack_from(e + "H", b, i)`: 16-bit unsigned read. -/
def u16 (e : Endian) (b : List Nat) (i : Nat) : Nat :=
  match e with
  | .be => 256 * byteD b i + byteD b (i + 1)
  | .le => byteD b i + 256 * byteD b (i + 1)

/-- `struct.unpack_from(e + "I", b, i)`: 32-bit unsigned read. -/
def u32 (e : Endian) (b : List Nat) (i : Nat) : Nat :=
  match e with
  | .be => ((byteD b i * 256 + byteD b (i + 1)) * 256 + byteD b (i + 2)) * 256 + byteD b (i + 3)
  | .le => ((byteD b (i + 3) * 256 + byteD b (i + 2)) * 256 + byteD b (i + 1)) * 256 + byteD b i

/-! ## photo_organizer._search_ifd_for_date / _parse_tiff_for_date -/

/-- `bytes.rstrip(b"\x00")`: strip trailing NUL bytes. -/
def rstripNul (b : List Nat) : List Nat := (b.reverse.dropWhile (fun x => x = 0)).reverse

/-- `.decode("ascii", errors="ignore")`: non-ASCII bytes are dropped. -/
def decodeAsciiIgnore (b : List Nat) : String :=
  ⟨(b.filter (fun x => x < 128)).map Char.ofNat⟩

/-- `str.split(sep)` for a single-character separator, over the character
list of the string (`"".split(":") == [""]`, `":".split(":") == ["", ""]`). -/
def splitChar (sep : Char) : List Char → List (List Char)
  | [] => [[]]
  | c :: cs =>
    match splitChar sep cs with
    | [] => [[c]]
    | h :: t => if c = sep then [] :: h :: t else (c :: h) :: t

/-- The body of the date-string validation in `_search_ifd_for_date`:
split on ':', require at least two parts with a 4-character first part. -/
def parseDateParts (s : String) : Option (String × String) :=
  let parts := (splitChar ':' s.data).map (fun l => (⟨l⟩ : String))
  if 2 ≤ parts.length ∧ (parts.getD 0 "").length = 4 then
    some (parts.getD 0 "", parts.getD 1 "")
  else none

/-- The `for i in range(entry_count)` loop of `_search_ifd_for_date`.
`n` counts the remaining iterations, `i` is the current index. -/
def searchEntries (b : List Nat) (ifdOffset : Nat) (e : Endian) : Nat → Nat → Option (String × String)
  | 0, _ => none
  | n + 1, i =>
    let entryOffset := ifdOffset + 2 + i * 12
    if entryOffset + 12 > b.length then none
    else
      let tag := u16 e b entryOffset
      if tag = 0x9003 ∨ tag = 0x0132 then
        let valueCount := u32 e b (entryOffset + 4)
        let valueOffset := u32 e b (entryOffset + 8)
        if valueOffset + valueCount ≤ b.length then
          let dateStr := decodeAsciiIgnore (rstripNul ((b.drop valueOffset).take valueCount))
          match parseDateParts dateStr with
          | some ym => some ym
          | none => searchEntries b ifdOffset e n (i + 1)
        else searchEntries b ifdOffset e n (i + 1)
      else searchEntries b ifdOffset e n (i + 1)

/-- `_search_ifd_for_date`: search an IFD for date tags 0x9003 / 0x0132. -/
def searchIfdForDate (b : List Nat) (ifdOffset : Nat) (e : Endian) : Option (String × String) :=
  if ifdOffset + 2 > b.length then none
  else searchEntries b ifdOffset e (u16 e b ifdOffset) 0

/-- `_parse_tiff_for_date`: byte-order marker, IFD0 offset, then IFD search. -/
def parseTiffForDate (b : List Nat) : Option (String × String) :=
  if b.length < 8 then none
  else if b.take 2 = [0x4D, 0x4D] then searchIfdForDate b (u32 .be b 4) .be
  else if b.take 2 = [0x49, 0x49] then searchIfdForDate b (u32 .le b 4) .le
  else none

/-- The outcome of examining the single directory entry at index `i` of the
`for i in range(entry_count)` loop in `_search_ifd_for_date` (the body of
`searchEntries`, one iteration): the date value the entry yields when its tag
is one of the two recognized date tags — membership in `{0x9003, 0x0132}`,
with no distinction between the two — and its value is in-bounds and
well-formed; `none` when the entry yields nothing and the loop moves on. -/
def entryDate (b : List Nat) (ifdOffset : Nat) (e : Endian) (i : Nat) :
    Option (String × String) :=
  let entryOffset := ifdOffset + 2 + i * 12
  let tag := u16 e b entryOffset
  if tag = 0x9003 ∨ tag = 0x0132 then
    let valueCount := u32 e b (entryOffset + 4)
    let valueOffset := u32 e b (entryOffset + 8)
    if valueOffset + valueCount ≤ b.length then
      parseDateParts (decodeAsciiIgnore (rstripNul ((b.drop valueOffset).take valueCount)))
    else none
  else none

/-! ## photo_organizer._extract_exif_date -/

/-- Result of `_extract_exif_date`: a found date, no date (including every
exception caught by the `except (OSError, struct.error)` handler), or an
uncaught exception escaping the function (`raises`). -/
inductive ExtractResult where
  | found (ym : String × String)
  | noDate
  | raises
deriving DecidableEq

/-- b"Exif\x00\x00" -/
def exifSig : List Nat := [0x45, 0x78, 0x69, 0x66, 0, 0]

/-- Reading the APP1 segment once its marker was found (`pos` is just past
the marker bytes).  `f.read(app1_len - 2)` with Python's negative-size
semantics: `app1_len = 0` gives `read(-2)`, an uncaught `ValueError`;
`app1_len = 1` gives `read(-1)`, which reads to EOF. -/
def readApp1 (d : List Nat) (pos : Nat) : ExtractResult :=
  let lenData := readBytes d pos 2
  if lenData.length < 2 then .noDate
  else
    let app1Len := 256 * byteD lenData 0 + byteD lenData 1
    if app1Len = 0 then .raises
    else
      let app1Data := if app1Len = 1 then d.drop (pos + 2) else readBytes d (pos + 2) (app1Len - 2)
      if app1Data.take 6 = exifSig then
        match parseTiffForDate (app1Data.drop 6) with
        | some ym => .found ym
        | none => .noDate
      else .noDate

/-- The marker-scanning `while True` loop of `_extract_exif_date`.
Each iteration advances the read position by at least 2 bytes, so the fuel
`d.length` passed by `extractExifDate` dominates the Python loop; fuel
exhaustion (first branch) is unreachable there. -/
def scanSegments (d : List Nat) : Nat → Nat → ExtractResult
  | 0, _ => .noDate
  | fuel + 1, pos =>
    let marker := readBytes d pos 2
    if marker.length < 2 then .noDate
    else if marker = [0xFF, 0xE1] then readApp1 d (pos + 2)
    else if marker.take 1 ≠ [0xFF] then .noDate
    else
      let lenData := readBytes d (pos + 2) 2
      if lenData.length < 2 then .noDate
      else
        let segLen := 256 * byteD lenData 0 + byteD lenData 1
        scanSegments d fuel (pos + 2 + segLen)

/-- `_extract_exif_date`, over the byte content of the opened file. -/
def extractExifDate (d : List Nat) : ExtractResult :=
  if readBytes d 0 2 ≠ [0xFF, 0xD8] then .noDate
  else scanSegments d d.length 2

/-! ## Filesystem model

Paths are `pathlib.Path` component lists.  The filesystem is an association
list of regular files plus a list of directories; `pathlib` and `shutil`
semantics are modelled as far as the organizer exercises them (moving whole
directory trees is outside the model). -/

/-- A path, as its `pathlib.Path` components. -/
abbrev FPath := List String

/-- One record of the move ledger (`create_backup_entry`); the wall-clock
timestamp field is not modelled. -/
structure MoveEntry where
  source : FPath
  destination : FPath
deriving DecidableEq

/-- Contents of a regular file: raw bytes, or the JSON manifest document
written by `save_manifest` (kept symbolically; its byte serialization is not
modelled — such a file never parses as a JPEG since its text starts with a
brace, and `getDateSubfolder` treats it accordingly). -/
inductive FileData where
  | bytes (b : List Nat)
  | manifestJson (entries : List MoveEntry)
deriving DecidableEq

structure Fs where
  files : List (FPath × FileData)
  dirs : List FPath
deriving DecidableEq

def lookupF (files : List (FPath × FileData)) (p : FPath) : Option FileData :=
  (files.find? (fun e => decide (e.1 = p))).map (fun e => e.2)

def lookupFile (fs : Fs) (p : FPath) : Option FileData := lookupF fs.files p

def isFile (fs : Fs) (p : FPath) : Bool := (lookupFile fs p).isSome

/-- `Path.is_dir()`.  The empty path (the current directory) always exists. -/
def isDir (fs : Fs) (p : FPath) : Bool := decide (p = []) || decide (p ∈ fs.dirs)

/-- `Path.exists()`. -/
def pathExists (fs : Fs) (p : FPath) : Bool := isFile fs p || isDir fs p

/-- All nonempty prefixes of a path, shortest first, including the path. -/
def ancestors (p : FPath) : List FPath :=
  (List.range p.length).map (fun k => p.take (k + 1))

/-- `Path.mkdir(parents=True, exist_ok=True)`: fails (`OSError`) iff a regular
file occupies the path or one of its ancestors; otherwise records the path
and all its ancestors as directories. -/
def mkdirp (fs : Fs) (p : FPath) : Option Fs :=
  if (ancestors p).any (fun q => isFile fs q) then none
  else some { fs with dirs := ancestors p ++ fs.dirs }

def eraseFile (files : List (FPath × FileData)) (p : FPath) : List (FPath × FileData) :=
  files.filter (fun e => decide (e.1 ≠ p))

/-- Final component of a path (`Path.name`). -/
def lastName (p : FPath) : String := p.getLastD ""

/-- `shutil.move(src, dst)` for a regular file `src`:
* error if `src` is not a regular file (directory moves are outside the model);
* if `dst` is an existing directory the file lands inside it, failing if that
  inner path already exists (`shutil.Error`, an `OSError`);
* otherwise an existing regular file at `dst` is overwritten (`os.rename`),
  but a missing parent directory of `dst` is an error. -/
def moveFile (fs : Fs) (src dst : FPath) : Option Fs :=
  match lookupFile fs src with
  | none => none
  | some c =>
    if isDir fs dst then
      if pathExists fs (dst ++ [lastName src]) then none
      else some { fs with files := (dst ++ [lastName src], c) :: eraseFile fs.files src }
    else if isDir fs dst.dropLast then
      some { fs with files := (dst, c) :: eraseFile (eraseFile fs.files src) dst }
    else none

/-- `str.lower()` (per-character; the extensions in play are ASCII). -/
def lowerStr (s : String) : String := ⟨s.data.map Char.toLower⟩

/-- `Path` joining of a relative string: split on '/', dropping empty
components (the absolute-path override of `Path.__truediv__` is not
modelled). -/
def splitComponents (s : String) : List String :=
  ((splitChar '/' s.data).map (fun l => (⟨l⟩ : String))).filter (fun c => decide (c ≠ ""))

def joinRel (base : FPath) (s : String) : FPath := base ++ splitComponents s

def rfindDotAux : List Char → Option Nat → Nat → Option Nat
  | [], acc, _ => acc
  | c :: cs, acc, i => rfindDotAux cs (if c = '.' then some i else acc) (i + 1)

/-- Index of the last '.' in a name, if any. -/
def rfindDot (cs : List Char) : Option Nat := rfindDotAux cs none 0

/-- `PurePath.stem` and `.suffix`: split the file name at the last dot,
unless that dot is leading or trailing. -/
def splitName (name : String) : String × String :=
  let cs := name.data
  match rfindDot cs with
  | some i =>
    if 0 < i ∧ i + 1 < cs.length then ((⟨cs.take i⟩ : String), (⟨cs.drop i⟩ : String))
    else (name, "")
  | none => (name, "")

def stemOf (name : String) : String := (splitName name).1

def suffixOf (name : String) : String := (splitName name).2

/-- `path.suffix.lower() in extensions` (the extension set is pre-lowered). -/
def extMatches (exts : List String) (name : String) : Bool :=
  decide (lowerStr (suffixOf name) ∈ exts)

/-- `source_dir.iterdir()` restricted to regular files (`f.is_file()`),
in the order the filesystem lists them. -/
def listDirFiles (fs : Fs) (dir : FPath) : List FPath :=
  fs.files.filterMap (fun e => if e.1.dropLast = dir ∧ e.1 ≠ [] then some e.1 else none)

/-! ## The organizers -/

structure OrgStats where
  moved : Nat
  wouldMove : Nat
  duplicates : Nat
deriving DecidableEq

/-- Outcome of one organizer run: `stats = none` models an uncaught
exception aborting the batch (`fs` is then the state at the abort point). -/
structure BatchOut where
  stats : Option OrgStats
  fs : Fs
  entries : List MoveEntry
deriving DecidableEq

inductive SubfolderPolicy where
  | photoDate
  | docExtension
  | downloadType
deriving DecidableEq

/-- `downloads_organizer.DOWNLOAD_TYPE_MAP`. -/
def downloadTypeMap : List (String × String) :=
  [(".dmg", "installers"), (".exe", "installers"), (".msi", "installers"),
   (".pkg", "installers"), (".deb", "installers"), (".rpm", "installers"),
   (".appimage", "installers"),
   (".zip", "archives"), (".tar", "archives"), (".gz", "archives"),
   (".bz2", "archives"), (".xz", "archives"), (".7z", "archives"),
   (".rar", "archives"),
   (".iso", "disk_images"), (".img", "disk_images")]

/-- `DOWNLOAD_TYPE_MAP.get(ext, "other")`. -/
def lookupTypeMap (ext : String) : String :=
  match downloadTypeMap.find? (fun e => decide (e.1 = ext)) with
  | some e => e.2
  | none => "other"

/-- `s.lstrip(".")`. -/
def dropLeadingDots (s : String) : String := ⟨s.data.dropWhile (fun c => c = '.')⟩

/-- `PhotoOrganizer._get_date_subfolder`, given the file's contents:
`none` models the uncaught `ValueError` escaping `_extract_exif_date`
(see `readApp1`); a missing file is an `OSError`, caught there and treated
as no-date.  The result is a relative path string ("YYYY/MM" or "unsorted"). -/
def getDateSubfolder (content : Option FileData) : Option String :=
  match content with
  | none => some "unsorted"
  | some (.manifestJson _) => some "unsorted"
  | some (.bytes b) =>
    match extractExifDate b with
    | .found (y, m) => some (y ++ "/" ++ m)
    | .noDate => some "unsorted"
    | .raises => none

/-- The per-file destination subfolder of each dedicated organizer. -/
def subfolderFor (policy : SubfolderPolicy) (fs : Fs) (f : FPath) : Option String :=
  match policy with
  | .photoDate => getDateSubfolder (lookupFile fs f)
  | .docExtension => some (lowerStr (dropLeadingDots (suffixOf (lastName f))))
  | .downloadType => some (lookupTypeMap (lowerStr (suffixOf (lastName f))))

/-- The duplicate-renaming `while dest.exists()` loop: probe
`stem_c + suffix` for `c = counter, counter+1, ...`.  `fuel` bounds the
recursion; `none` models the loop still running when the fuel — always
passed as `probeFuel`, which exceeds the number of filesystem entries and
is hence never exhausted — runs out. -/
def probeDest (fs : Fs) (destDir : FPath) (stem sfx : String) : Nat → Nat → Option FPath
  | 0, _ => none
  | fuel + 1, c =>
    let cand := destDir ++ [stem ++ "_" ++ Nat.repr c ++ sfx]
    if pathExists fs cand then probeDest fs destDir stem sfx fuel (c + 1)
    else some cand

def probeFuel (fs : Fs) : Nat := fs.files.length + fs.dirs.length + 1

/-- Duplicate resolution as written inline in each organize loop: if the
desired destination exists, count a duplicate and probe for a free name. -/
def resolveDest (fs : Fs) (destDir : FPath) (name : String) : Option (FPath × Bool) :=
  if pathExists fs (destDir ++ [name]) then
    (probeDest fs destDir (stemOf name) (suffixOf name) (probeFuel fs) 1).map
      (fun p => (p, true))
  else some (destDir ++ [name], false)

/-- The `for photo in photos:` loop shared — up to the subfolder policy — by
`PhotoOrganizer.organize`, `DocumentOrganizer.organize` and
`DownloadsOrganizer.organize`. -/
def orgLoop (policy : SubfolderPolicy) (targetDir : FPath) (dryRun : Bool) :
    List FPath → Fs → OrgStats → List MoveEntry → BatchOut
  | [], fs, st, es => ⟨some st, fs, es⟩
  | f :: rest, fs, st, es =>
    match subfolderFor policy fs f with
    | none => ⟨none, fs, es⟩
    | some sub =>
      let destDir := joinRel targetDir sub
      if dryRun then
        orgLoop policy targetDir dryRun rest fs { st with wouldMove := st.wouldMove + 1 } es
      else
        match mkdirp fs destDir with
        | none => ⟨none, fs, es⟩
        | some fs1 =>
          match resolveDest fs1 destDir (lastName f) with
          | none => ⟨none, fs1, es⟩
          | some (dest, dup) =>
            match moveFile fs1 f dest with
            | none => ⟨none, fs1, es⟩
            | some fs2 =>
              orgLoop policy targetDir dryRun rest fs2
                { st with moved := st.moved + 1,
                          duplicates := if dup then st.duplicates + 1 else st.duplicates }
                (es ++ [⟨f, dest⟩])

/-- `scan`: the snapshot of eligible files taken at the start of a
dedicated organizer's batch. -/
def scanFiles (fs : Fs) (srcDir : FPath) (exts : List String) : List FPath :=
  if ¬ isDir fs srcDir then []
  else (listDirFiles fs srcDir).filter (fun f => extMatches exts (lastName f))

/-- The organize method of a dedicated organizer (`exts` pre-lowered). -/
def organizeDedicated (policy : SubfolderPolicy) (fs : Fs) (srcDir targetDir : FPath)
    (exts : List String) (dryRun : Bool) : BatchOut :=
  orgLoop policy targetDir dryRun (scanFiles fs srcDir exts) fs ⟨0, 0, 0⟩ []

/-- The `for f in source_dir.iterdir():` loop of
`FileOrganizer._organize_generic` (target directory already created). -/
def genLoop (targetDir : FPath) (exts : List String) (dryRun : Bool) :
    List FPath → Fs → OrgStats → List MoveEntry → BatchOut
  | [], fs, st, es => ⟨some st, fs, es⟩
  | f :: rest, fs, st, es =>
    if ¬ extMatches exts (lastName f) then genLoop targetDir exts dryRun rest fs st es
    else if dryRun then
      genLoop targetDir exts dryRun rest fs { st with wouldMove := st.wouldMove + 1 } es
    else
      match resolveDest fs targetDir (lastName f) with
      | none => ⟨none, fs, es⟩
      | some (dest, dup) =>
        match moveFile fs f dest with
        | none => ⟨none, fs, es⟩
        | some fs2 =>
          genLoop targetDir exts dryRun rest fs2
            { st with moved := st.moved + 1,
                      duplicates := if dup then st.duplicates + 1 else st.duplicates }
            (es ++ [⟨f, dest⟩])

/-- `FileOrganizer._organize_generic`: early return for a missing source
directory, unconditional target-directory creation when not a dry run, then
the loop. -/
def organizeGeneric (fs : Fs) (srcDir targetDir : FPath) (exts : List String)
    (dryRun : Bool) : BatchOut :=
  if ¬ isDir fs srcDir then ⟨some ⟨0, 0, 0⟩, fs, []⟩
  else if dryRun then genLoop targetDir exts dryRun (listDirFiles fs srcDir) fs ⟨0, 0, 0⟩ []
  else
    match mkdirp fs targetDir with
    | none => ⟨none, fs, []⟩
    | some fs1 => genLoop targetDir exts dryRun (listDirFiles fs1 srcDir) fs1 ⟨0, 0, 0⟩ []

/-! ## Configuration and the top-level organizer -/

structure CatData where
  extensions : List String
  targetDir : Option String
deriving DecidableEq

structure Config where
  categories : List (String × CatData)
deriving DecidableEq

def Config.getCat (cfg : Config) (name : String) : Option CatData :=
  (cfg.categories.find? (fun e => decide (e.1 = name))).map (fun e => e.2)

def Config.hasCat (cfg : Config) (name : String) : Bool := (cfg.getCat name).isSome

/-- `Config.get_target_dir`. -/
def Config.getTargetDir (cfg : Config) (name : String) : Option String :=
  (cfg.getCat name).bind (fun c => c.targetDir)

/-- A category's extension list, pre-lowered as in each organizer's
constructor and in `FileOrganizer.organize`'s generic pass. -/
def Config.extsLower (cfg : Config) (name : String) : List String :=
  (((cfg.getCat name).map (fun c => c.extensions)).getD []).map lowerStr

/-- The fixed dedicated-organizer table of `FileOrganizer._build_organizers`,
in its iteration order. -/
def dedicatedNames : List String := ["photos", "documents", "downloads"]

def policyFor (name : String) : SubfolderPolicy :=
  if name = "photos" then .photoDate
  else if name = "documents" then .docExtension
  else .downloadType

/-- `if categories and cat_name not in categories: continue` — an empty list
is falsy in Python, so it selects every category. -/
def catSelected (cats : Option (List String)) (name : String) : Bool :=
  match cats with
  | none => true
  | some l => l.isEmpty || l.contains name

/-- `self.config.get_target_dir(cat_name) or cat_name` (Python `or`:
`None` and `""` both fall back to the category name). -/
def effTargetDedicated (cfg : Config) (name : String) : String :=
  match cfg.getTargetDir name with
  | some s => if s = "" then name else s
  | none => name

def manifestFileName : String := ".file_organizer_manifest.json"

/-- Result of `FileOrganizer.organize`: the aggregate counters, the final
filesystem, the backup-manifest entries, and the path the manifest was
persisted to (if any).  `stats = none` models an uncaught exception. -/
structure FullResult where
  stats : Option (Nat × Nat)
  fs : Fs
  entries : List MoveEntry
  saved : Option FPath
deriving DecidableEq

/-- One category pass of `FileOrganizer.organize`: a dedicated organizer or
the generic fallback. -/
def runOneCat (cfg : Config) (baseTarget srcDir : FPath) (dryRun : Bool)
    (fs : Fs) (name : String) (dedicated : Bool) : BatchOut :=
  if dedicated then
    organizeDedicated (policyFor name) fs srcDir
      (joinRel baseTarget (effTargetDedicated cfg name)) (cfg.extsLower name) dryRun
  else
    let data := (cfg.getCat name).getD ⟨[], none⟩
    organizeGeneric fs srcDir (joinRel baseTarget (data.targetDir.getD name))
      (cfg.extsLower name) dryRun

/-- The ordered category passes of `FileOrganizer.organize`: dedicated
organizers first (table order), then the remaining configured categories
(config order), honouring the `categories` filter. -/
def catRuns (cfg : Config) (cats : Option (List String)) : List (String × Bool) :=
  (dedicatedNames.filter (fun n => cfg.hasCat n && catSelected cats n)).map (fun n => (n, true))
    ++ ((cfg.categories.map (fun e => e.1)).filter
        (fun n => decide (n ∉ dedicatedNames.filter (fun m => cfg.hasCat m))
          && catSelected cats n)).map (fun n => (n, false))

/-- The category loop of `FileOrganizer.organize`, accumulating totals and
manifest entries; an uncaught exception aborts the remaining passes. -/
def runCatList (cfg : Config) (baseTarget srcDir : FPath) (dryRun : Bool) :
    List (String × Bool) → Fs → Nat → Nat → List MoveEntry →
    Option (Nat × Nat) × Fs × List MoveEntry
  | [], fs, moved, would, es => (some (moved, would), fs, es)
  | (name, ded) :: rest, fs, moved, would, es =>
    let r := runOneCat cfg baseTarget srcDir dryRun fs name ded
    match r.stats with
    | none => (none, r.fs, es ++ r.entries)
    | some st =>
      runCatList cfg baseTarget srcDir dryRun rest r.fs (moved + st.moved)
        (would + st.wouldMove) (es ++ r.entries)

/-- `save_manifest`: `path.parent.mkdir(parents=True, exist_ok=True)`, then
write the JSON document (overwriting a regular file; an existing directory
at the path is an error). -/
def saveManifest (fs : Fs) (path : FPath) (es : List MoveEntry) : Option Fs :=
  match mkdirp fs path.dropLast with
  | none => none
  | some fs1 =>
    if isDir fs1 path then none
    else some { fs1 with files := (path, .manifestJson es) :: eraseFile fs1.files path }

/-- `FileOrganizer.organize`. -/
def fileOrganizerOrganize (cfg : Config) (baseTarget srcDir : FPath)
    (dryRun : Bool) (cats : Option (List String)) (fs : Fs) : FullResult :=
  match runCatList cfg baseTarget srcDir dryRun (catRuns cfg cats) fs 0 0 [] with
  | (none, fs1, es) => ⟨none, fs1, es, none⟩
  | (some (moved, would), fs1, es) =>
    if dryRun = false ∧ 0 < moved then
      match mkdirp fs1 baseTarget with
      | none => ⟨none, fs1, es, none⟩
      | some fs2 =>
        match saveManifest fs2 (baseTarget ++ [manifestFileName]) es with
        | none => ⟨none, fs2, es, none⟩
        | some fs3 => ⟨some (moved, would), fs3, es, some (baseTarget ++ [manifestFileName])⟩
    else ⟨some (moved, would), fs1, es, none⟩

/-! ## Undo -/

structure UndoResult where
  fs : Fs
  restored : Nat
  failed : Nat
deriving DecidableEq

/-- One iteration of the `for entry in reversed(manifest.entries)` loop of
`undo_moves`: a missing destination, or any `OSError` from recreating the
source's parent directory or from the move back, counts the entry as failed;
otherwise it is restored. -/
def undoStep (fs : Fs) (e : MoveEntry) : Fs × Bool :=
  if ¬ pathExists fs e.destination then (fs, false)
  else
    match mkdirp fs e.source.dropLast with
    | none => (fs, false)
    | some fs1 =>
      match moveFile fs1 e.destination e.source with
      | none => (fs1, false)
      | some fs2 => (fs2, true)

/-- The `for entry in reversed(manifest.entries)` loop of `undo_moves`,
over the already-reversed entry list. -/
def undoLoop : List MoveEntry → Fs → Nat → Nat → UndoResult
  | [], fs, r, f => ⟨fs, r, f⟩
  | e :: rest, fs, r, f =>
    match undoStep fs e with
    | (fs1, true) => undoLoop rest fs1 (r + 1) f
    | (fs1, false) => undoLoop rest fs1 r (f + 1)

/-- `undo_moves`: replay the manifest entries in reverse insertion order,
counting restored and failed entries. -/
def undoMoves (fs : Fs) (entries : List MoveEntry) : UndoResult :=
  undoLoop entries.reverse fs 0 0

/-- `load_manifest`: a missing manifest file is an empty manifest; parsing a
raw-bytes file as JSON is outside the model (`none` = propagated parse
error — never hit by a manifest written through `saveManifest`). -/
def loadManifest (fs : Fs) (path : FPath) : Option (List MoveEntry) :=
  match lookupFile fs path with
  | none => some []
  | some (.manifestJson es) => some es
  | some (.bytes _) => none

/-- `FileOrganizer.undo`. -/
def fileOrganizerUndo (fs : Fs) (path : FPath) : Option UndoResult :=
  (loadManifest fs path).map (fun es => undoMoves fs es)

/-! ## Concrete inputs used by witnesses and counterexamples -/

/-- b"2023:06:15 10:30:00\x00" -/
def dateB2023 : List Nat := [50,48,50,51,58,48,54,58,49,53,32,49,48,58,51,48,58,48,48,0]

/-- b"1999:01:01 00:00:00\x00" -/
def dateB1999 : List Nat := [49,57,57,57,58,48,49,58,48,49,32,48,48,58,48,48,58,48,48,0]

/-- A well-formed big-endian TIFF block: one IFD entry, tag 0x9003
(date-time-original), ASCII value `dateB2023` at offset 26. -/
def tiffDTO : List Nat :=
  [0x4D,0x4D, 0,0x2A, 0,0,0,8, 0,1, 0x90,0x03, 0,2, 0,0,0,20, 0,0,0,26, 0,0,0,0] ++ dateB2023

/-- A big-endian TIFF block whose IFD holds the generic date-time tag 0x0132
(value `dateB1999`, offset 34) at position 0 and the date-time-original tag
0x9003 (value `dateB2023`, offset 54) at position 1. -/
def tiffBothGenericFirst : List Nat :=
  [0x4D,0x4D, 0,0x2A, 0,0,0,8, 0,2,
   0x01,0x32, 0,2, 0,0,0,20, 0,0,0,34,
   0x90,0x03, 0,2, 0,0,0,20, 0,0,0,54] ++ dateB1999 ++ dateB2023

/-- The same directory with the two entries swapped: 0x9003 (value at 34)
at position 0, 0x0132 (value at 54) at position 1. -/
def tiffBothOriginalFirst : List Nat :=
  [0x4D,0x4D, 0,0x2A, 0,0,0,8, 0,2,
   0x90,0x03, 0,2, 0,0,0,20, 0,0,0,34,
   0x01,0x32, 0,2, 0,0,0,20, 0,0,0,54] ++ dateB2023 ++ dateB1999

/-- A JPEG whose APP1/EXIF payload is `tiffDTO`. -/
def jpegDTO : List Nat := [0xFF,0xD8, 0xFF,0xE1, 0,54] ++ exifSig ++ tiffDTO ++ [0xFF,0xD9]

/-- A JPEG with no metadata segment at all. -/
def jpegPlain : List Nat := [0xFF,0xD8,0xFF,0xD9]

/-- A JPEG whose APP1 marker is followed by a declared segment length of 0:
`f.read(0 - 2)` raises an uncaught `ValueError` in `_extract_exif_date`. -/
def jpegZeroLenApp1 : List Nat := [0xFF,0xD8, 0xFF,0xE1, 0,0]

/-- The end-to-end scenario filesystem: a source directory holding one photo
with the embedded 2023:06 date and one photo with no metadata segment. -/
def fsE2E : Fs :=
  ⟨[(["src","a.jpg"], .bytes jpegDTO), (["src","b.jpg"], .bytes jpegPlain)], [["src"]]⟩

def cfgE2E : Config := ⟨[("photos", ⟨[".jpg"], some "Photos"⟩)]⟩

def runE2E : FullResult := fileOrganizerOrganize cfgE2E ["tgt"] ["src"] false none fsE2E

/-- A filesystem for the C5 counterexample: the manifest destination
`d.txt` exists as a regular file, but a regular file `blk` blocks creation
of the recorded source's parent directory `blk/sub`. -/
def fsC5 : Fs := ⟨[(["d.txt"], .bytes []), (["blk"], .bytes [])], []⟩

/-- The C5 counterexample ledger entry: destination present, source parent
chain blocked by the regular file `blk`. -/
def entryC5 : MoveEntry := ⟨["blk", "sub", "f.txt"], ["d.txt"]⟩

/-- A filesystem for the C5 witness success case. -/
def fsC5b : Fs := ⟨[(["d.txt"], .bytes [7])], [["s"]]⟩

def entryC5b : MoveEntry := ⟨["s", "f.txt"], ["d.txt"]⟩

/-- The probed duplicate name `f"{stem}_{counter}{suffix}"`. -/
def dupName (nm : String) (k : Nat) : String :=
  stemOf nm ++ "_" ++ Nat.repr k ++ suffixOf nm

/-- The k-th destination assigned to files named `nm` in `destDir`: the
unmodified name for the first file, `stem_k + suffix` for the (k+1)-st. -/
def dupProbePath (destDir : FPath) (nm : String) (k : Nat) : FPath :=
  if k = 0 then destDir ++ [nm] else destDir ++ [dupName nm k]

/-- Three same-named files in different source directories, plus an
unrelated pre-existing file, for the C4 witness. -/
def fsC4 : Fs :=
  ⟨[(["s1", "a.txt"], .bytes [1]), (["s2", "a.txt"], .bytes [2]),
    (["s3", "a.txt"], .bytes [3]), (["keep.txt"], .bytes [9])],
   [["t"], ["s1"], ["s2"], ["s3"]]⟩

def lC4 : List FPath := [["s1", "a.txt"], ["s2", "a.txt"], ["s3", "a.txt"]]

/-! ## Verification predicates for the round-trip law (C1) -/

/-- The effective relative target components of one category pass of
`FileOrganizer.organize` (mirroring `runOneCat`). -/
def targetComps (cfg : Config) (name : String) (dedicated : Bool) : List String :=
  if dedicated then splitComponents (effTargetDedicated cfg name)
  else splitComponents ((((cfg.getCat name).getD ⟨[], none⟩).targetDir).getD name)

/-- What the file map of an execute-mode batch looks like after performing
the recorded relocations `es` on top of `fs0`: each recorded destination
holds the content its source had in `fs0`, each recorded source is gone,
and every other path is untouched. -/
def execChar (fs0 : Fs) (es : List MoveEntry) (p : FPath) : Option FileData :=
  match es.find? (fun e => decide (e.destination = p)) with
  | some e => lookupF fs0.files e.source
  | none =>
    if p ∈ es.map (fun e => e.source) then none else lookupF fs0.files p

/-- Invariant of an execute-mode batch over source directory `srcDir` and
target root `base`: the filesystem `fsI` differs from `fs0` exactly by the
recorded relocations `es`, whose sources sit directly in `srcDir` and whose
destinations sit strictly below `base`; directories only grow, and only on
the target side. -/
structure ExecInv (fs0 : Fs) (srcDir base : FPath) (fsI : Fs) (es : List MoveEntry) : Prop where
  dirs_mono : ∀ d ∈ fs0.dirs, d ∈ fsI.dirs
  dirs_side : ∀ d ∈ fsI.dirs,
    d ∈ fs0.dirs ∨ base.take d.length = d ∨ d.take base.length = base
  src_shape : ∀ e ∈ es, e.source.dropLast = srcDir ∧ e.source ≠ []
  dst_shape : ∀ e ∈ es,
    e.destination.take base.length = base ∧ base.length + 2 ≤ e.destination.length
  dst_nodup : (es.map (fun e => e.destination)).Nodup
  src_nodup : (es.map (fun e => e.source)).Nodup
  src_was : ∀ e ∈ es, (lookupF fs0.files e.source).isSome = true
  dst_fresh : ∀ e ∈ es, pathExists fs0 e.destination = false
  look : ∀ p, lookupF fsI.files p = execChar fs0 es p

/-- The state seen by undo while unwinding: the manifest file sits at `m`
(holding the full record list `full`), the entries `es` are still applied,
and directories may additionally include recreated ancestors of `srcDir`. -/
structure UndoInv (fs0 : Fs) (srcDir base : FPath) (m : FPath) (full : List MoveEntry)
    (fsU : Fs) (es : List MoveEntry) : Prop where
  dirs_side : ∀ d ∈ fsU.dirs,
    d ∈ fs0.dirs ∨ base.take d.length = d ∨ d.take base.length = base
      ∨ srcDir.take d.length = d
  look : ∀ p, lookupF fsU.files p =
    if m = p then some (.manifestJson full) else execChar fs0 es p

/-- The record-list well-formedness extracted from a finished execute batch
and consumed by the undo phase. -/
structure EntryFacts (fs0 : Fs) (srcDir base : FPath) (es : List MoveEntry) : Prop where
  src_shape : ∀ e ∈ es, e.source.dropLast = srcDir ∧ e.source ≠ []
  dst_shape : ∀ e ∈ es,
    e.destination.take base.length = base ∧ base.length + 2 ≤ e.destination.length
  dst_nodup : (es.map (fun e => e.destination)).Nodup
  src_nodup : (es.map (fun e => e.source)).Nodup
  src_was : ∀ e ∈ es, (lookupF fs0.files e.source).isSome = true
  dst_fresh : ∀ e ∈ es, pathExists fs0 e.destination = false

/-! ## Theorems -/

/-! ## Decimal numeral facts

The duplicate-renaming policy formats a counter with Python's decimal
`str(int)`; in the embedding this is `Nat.repr`.  Distinctness of the probed
names rests on injectivity of the decimal numeral, proved here. -/

theorem toDigitsCore_append (n : Nat) : ∀ (fuel : Nat) (ds : List Char), n < fuel →
    Nat.toDigitsCore 10 fuel n ds = Nat.toDigits 10 n ++ ds := by
  induction n using Nat.strong_induction_on with
  | _ n ih =>
    intro fuel ds h
    match fuel with
    | f + 1 =>
      have hf : n ≤ f := Nat.lt_succ_iff.mp h
      have step1 : Nat.toDigitsCore 10 (f + 1) n ds
          = if n / 10 = 0 then Nat.digitChar (n % 10) :: ds
            else Nat.toDigitsCore 10 f (n / 10) (Nat.digitChar (n % 10) :: ds) := rfl
      have step2 : Nat.toDigits 10 n
          = if n / 10 = 0 then [Nat.digitChar (n % 10)]
            else Nat.toDigitsCore 10 n (n / 10) [Nat.digitChar (n % 10)] := rfl
      rw [step1, step2]
      by_cases h0 : n / 10 = 0
      · simp [h0]
      · have hlt : n / 10 < n := Nat.div_lt_self (Nat.pos_of_ne_zero (fun hn => h0 (by simp [hn]))) (by norm_num)
        have h1 : n / 10 < f := Nat.lt_of_lt_of_le hlt hf
        rw [if_neg h0, if_neg h0, ih (n / 10) hlt f _ h1, ih (n / 10) hlt n _ hlt,
          List.append_assoc]
        rfl

theorem toDigits_ten_eq (n : Nat) :
    Nat.toDigits 10 n
      = (if n < 10 then [] else Nat.toDigits 10 (n / 10)) ++ [Nat.digitChar (n % 10)] := by
  have step : Nat.toDigits 10 n
      = if n / 10 = 0 then [Nat.digitChar (n % 10)]
        else Nat.toDigitsCore 10 n (n / 10) [Nat.digitChar (n % 10)] := rfl
  by_cases h : n < 10
  · have h0 : n / 10 = 0 := Nat.div_eq_of_lt h
    rw [step, if_pos h0, if_pos h]
    rfl
  · have hlt : n / 10 < n := Nat.div_lt_self (by omega) (by norm_num)
    rw [step, if_neg (by omega : ¬ n / 10 = 0), if_neg h,
      toDigitsCore_append (n / 10) n [Nat.digitChar (n % 10)] hlt]

theorem toDigits_ten_ne_nil (n : Nat) : Nat.toDigits 10 n ≠ [] := by
  rw [toDigits_ten_eq]
  simp

theorem digitChar_lt_inj : ∀ a, a < 10 → ∀ b, b < 10 → Nat.digitChar a = Nat.digitChar b → a = b := by
  decide

theorem toDigits_ten_inj : ∀ m, ∀ n, Nat.toDigits 10 m = Nat.toDigits 10 n → m = n := by
  intro m
  induction m using Nat.strong_induction_on with
  | _ m ih =>
    intro n hmn
    rw [toDigits_ten_eq m, toDigits_ten_eq n] at hmn
    obtain ⟨hpre, hdig⟩ := List.append_inj' hmn rfl
    have hmod : m % 10 = n % 10 :=
      digitChar_lt_inj _ (Nat.mod_lt _ (by norm_num)) _ (Nat.mod_lt _ (by norm_num))
        (List.cons.inj hdig).1
    by_cases hm : m < 10 <;> by_cases hn : n < 10
    · omega
    · rw [if_pos hm, if_neg hn] at hpre
      exact absurd hpre.symm (toDigits_ten_ne_nil _)
    · rw [if_neg hm, if_pos hn] at hpre
      exact absurd hpre (toDigits_ten_ne_nil _)
    · rw [if_neg hm, if_neg hn] at hpre
      have hdiv : m / 10 = n / 10 := ih (m / 10) (Nat.div_lt_self (by omega) (by norm_num)) _ hpre
      omega

theorem repr_nat_inj : ∀ m n : Nat, Nat.repr m = Nat.repr n → m = n := by
  intro m n h
  apply toDigits_ten_inj
  have : (Nat.repr m).data = (Nat.repr n).data := by rw [h]
  simpa [Nat.repr, List.asString] using this

end FileOrg

namespace FileOrg

/-! ## Undo counting lemmas -/

theorem undoLoop_counts (l : List MoveEntry) : ∀ (fs : Fs) (r f : Nat),
    (undoLoop l fs r f).restored + (undoLoop l fs r f).failed = r + f + l.length := by
  induction l with
  | nil => intro fs r f; simp [undoLoop]
  | cons e t ih =>
    intro fs r f
    simp only [undoLoop]
    cases h : undoStep fs e with
    | mk fs1 ok =>
      cases ok
      · rw [ih]
        simp [List.length_cons]
        omega
      · rw [ih]
        simp [List.length_cons]
        omega

/-- C9: for every manifest, undo returns counts with restored + failed equal
to the number of entries — each entry is counted exactly once, as either
restored or failed, never skipped or double-counted. -/
theorem c9_undo_counts_partition (fs : Fs) (entries : List MoveEntry) :
    (undoMoves fs entries).restored + (undoMoves fs entries).failed = entries.length := by
  simpa [undoMoves] using undoLoop_counts entries.reverse fs 0 0

/-! ## Date-extractor claims -/

/-- C8: date extraction example — a well-formed big-endian container whose
nested tag directory holds one entry with the date-time-original tag and
ASCII value "2023:06:15 10:30:00" yields exactly the pair ("2023", "06"). -/
theorem c8_date_extraction_example : parseTiffForDate tiffDTO = some ("2023", "06") := by
  decide

/-- C3 counterexample: a directory holding entries for both recognized tags —
the generic date-time tag 0x0132 (value "1999:01:01 00:00:00") at position 0
and the date-time-original tag 0x9003 (value "2023:06:15 10:30:00") at
position 1 — returns the generic tag's value, not the date-time-original
value ("2023", "06") the claim requires regardless of positions. -/
theorem c3_counterexample :
    parseTiffForDate tiffBothGenericFirst = some ("1999", "01") ∧
      (("1999", "01") : String × String) ≠ ("2023", "06") := by
  exact ⟨by decide, by decide⟩

/-- One `for i in range(entry_count)` loop returns the date yielded by the
first yielding entry: if the `k` entries after index `i` yield nothing
(`entryDate = none`), all entries through relative index `k` are in bounds
(no `break`), and the entry at relative index `k` yields `ym` within the
remaining iteration budget, the loop returns `ym`. -/
theorem searchEntries_first_match (b : List Nat) (off : Nat) (e : Endian) :
    ∀ (k n i : Nat) (ym : String × String),
      (∀ j, j < k → entryDate b off e (i + j) = none) →
      (∀ j, j ≤ k → off + 2 + (i + j) * 12 + 12 ≤ b.length) →
      entryDate b off e (i + k) = some ym →
      k < n →
      searchEntries b off e n i = some ym := by
  intro k
  induction k with
  | zero =>
    intro n i ym hmiss hbounds hhit hn
    match n, hn with
    | n' + 1, _ =>
      rw [Nat.add_zero] at hhit
      have hb0 := hbounds 0 (Nat.le_refl 0)
      rw [Nat.add_zero] at hb0
      simp only [searchEntries]
      rw [if_neg (by omega)]
      simp only [entryDate] at hhit
      by_cases htag : u16 e b (off + 2 + i * 12) = 0x9003 ∨ u16 e b (off + 2 + i * 12) = 0x0132
      · rw [if_pos htag] at hhit ⊢
        by_cases hv : u32 e b (off + 2 + i * 12 + 8) + u32 e b (off + 2 + i * 12 + 4) ≤ b.length
        · rw [if_pos hv] at hhit ⊢
          rw [hhit]
        · rw [if_neg hv] at hhit
          cases hhit
      · rw [if_neg htag] at hhit
        cases hhit
  | succ k' ih =>
    intro n i ym hmiss hbounds hhit hn
    match n, hn with
    | n' + 1, hn =>
      have hb0 := hbounds 0 (Nat.zero_le _)
      rw [Nat.add_zero] at hb0
      have hm0 := hmiss 0 (Nat.succ_pos k')
      rw [Nat.add_zero] at hm0
      simp only [searchEntries]
      rw [if_neg (by omega)]
      simp only [entryDate] at hm0
      have hrec : searchEntries b off e n' (i + 1) = some ym := by
        apply ih n' (i + 1) ym
        · intro j hj
          have hh := hmiss (j + 1) (by omega)
          rw [show i + (j + 1) = i + 1 + j from by omega] at hh
          exact hh
        · intro j hj
          have hh := hbounds (j + 1) (by omega)
          rw [show i + (j + 1) = i + 1 + j from by omega] at hh
          exact hh
        · rw [show i + 1 + k' = i + (k' + 1) from by omega]
          exact hhit
        · omega
      by_cases htag : u16 e b (off + 2 + i * 12) = 0x9003 ∨ u16 e b (off + 2 + i * 12) = 0x0132
      · rw [if_pos htag] at hm0 ⊢
        by_cases hv : u32 e b (off + 2 + i * 12 + 8) + u32 e b (off + 2 + i * 12 + 4) ≤ b.length
        · rw [if_pos hv] at hm0 ⊢
          rw [hm0]
          exact hrec
        · rw [if_neg hv]
          exact hrec
      · rw [if_neg htag]
        exact hrec

/-- C3 amended: the `_search_ifd_for_date` scan is positional, with no
priority between the two recognized tags.  For every TIFF blob, directory
offset and byte order: if the directory's first `k` entries yield no date —
tag not in the recognized set `{0x9003, 0x0132}`, value out of bounds, or
value malformed — while the entry at position `k` (within the declared entry
count, with all entries through position `k` in bounds) bears either
recognized tag with an in-bounds, well-formed value `ym`, then the scan
returns exactly `ym`.  So when entries for both the date-time-original tag
and the generic date-time tag are present, the first of them in position
order wins, and the date-time-original value is returned only when that
entry precedes the generic one. -/
theorem c3_positional_first_match (b : List Nat) (off : Nat) (e : Endian)
    (k : Nat) (ym : String × String)
    (hoff : off + 2 ≤ b.length)
    (hk : k < u16 e b off)
    (hbounds : ∀ j, j ≤ k → off + 2 + j * 12 + 12 ≤ b.length)
    (hmiss : ∀ j, j < k → entryDate b off e j = none)
    (hhit : entryDate b off e k = some ym) :
    searchIfdForDate b off e = some ym := by
  unfold searchIfdForDate
  rw [if_neg (by omega)]
  apply searchEntries_first_match b off e k (u16 e b off) 0 ym
  · intro j hj
    rw [Nat.zero_add]
    exact hmiss j hj
  · intro j hj
    rw [Nat.zero_add]
    exact hbounds j hj
  · rw [Nat.zero_add]
    exact hhit
  · exact hk

/-- Witness for C3: in the both-tags directory with the generic date-time
entry at position 0 (value "1999:01:01 00:00:00") and the date-time-original
entry at position 1, the positional law applies at position 0 and the scan
returns the generic entry's value. -/
theorem c3_witness : searchIfdForDate tiffBothGenericFirst 8 .be = some ("1999", "01") :=
  c3_positional_first_match tiffBothGenericFirst 8 .be 0 ("1999", "01")
    (by decide) (by decide) (by decide) (by decide) (by decide)

/-- C2: at the failing input — SOI marker, then an APP1 marker whose declared
16-bit segment length is 0 — `_extract_exif_date` executes `f.read(-2)`,
which raises an uncaught `ValueError` (only `OSError` and `struct.error` are
caught), instead of resolving the malformed input to no-date. -/
theorem c2_zero_length_app1_raises : extractExifDate jpegZeroLenApp1 = .raises := by
  decide

end FileOrg

namespace FileOrg

/-! ## Filesystem toolkit lemmas -/

theorem lookupF_cons (q : FPath) (d : FileData) (t : List (FPath × FileData)) (p : FPath) :
    lookupF ((q, d) :: t) p = if q = p then some d else lookupF t p := by
  by_cases h : q = p <;> simp [lookupF, List.find?_cons, h]

theorem lookupF_eraseFile (files : List (FPath × FileData)) (q p : FPath) :
    lookupF (eraseFile files q) p = if q = p then none else lookupF files p := by
  induction files with
  | nil => by_cases h : q = p <;> simp [eraseFile, lookupF, h]
  | cons e t ih =>
    obtain ⟨r, d⟩ := e
    by_cases hrq : r = q
    · subst hrq
      have he : eraseFile ((r, d) :: t) r = eraseFile t r := by simp [eraseFile]
      rw [he, ih, lookupF_cons]
      by_cases h : r = p
      · simp [h]
      · simp [h]
    · have he : eraseFile ((r, d) :: t) q = (r, d) :: eraseFile t q := by
        simp [eraseFile, hrq]
      rw [he, lookupF_cons, ih, lookupF_cons]
      by_cases hq : q = p
      · subst hq
        simp [show ¬ r = q from hrq]
      · simp [hq]

theorem mkdirp_files {fs fs' : Fs} {p : FPath} (h : mkdirp fs p = some fs') :
    fs'.files = fs.files := by
  unfold mkdirp at h
  split at h
  · exact absurd h (by simp)
  · cases h
    rfl

theorem mkdirp_dirs {fs fs' : Fs} {p : FPath} (h : mkdirp fs p = some fs') :
    fs'.dirs = ancestors p ++ fs.dirs := by
  unfold mkdirp at h
  split at h
  · exact absurd h (by simp)
  · cases h
    rfl

theorem moveFile_dirs {fs fs' : Fs} {s d : FPath} (h : moveFile fs s d = some fs') :
    fs'.dirs = fs.dirs := by
  unfold moveFile at h
  split at h
  · exact absurd h (by simp)
  · split at h
    · split at h
      · exact absurd h (by simp)
      · cases h
        rfl
    · split at h
      · cases h
        rfl
      · exact absurd h (by simp)

/-- The standard file-move case: source present, destination not a directory,
destination's parent a directory. -/
theorem moveFile_std {fs : Fs} {s d : FPath} {c : FileData}
    (hsrc : lookupFile fs s = some c) (hdst : isDir fs d = false)
    (hpar : isDir fs d.dropLast = true) :
    moveFile fs s d = some ⟨(d, c) :: eraseFile (eraseFile fs.files s) d, fs.dirs⟩ := by
  unfold moveFile
  rw [hsrc]
  simp only [hdst, hpar]
  rfl

/-- `genLoop` never touches directories. -/
theorem genLoop_dirs (targetDir : FPath) (exts : List String) (dryRun : Bool) :
    ∀ (l : List FPath) (fs : Fs) (st : OrgStats) (es : List MoveEntry),
    (genLoop targetDir exts dryRun l fs st es).fs.dirs = fs.dirs := by
  intro l
  induction l with
  | nil => intro fs st es; rfl
  | cons f rest ih =>
    intro fs st es
    simp only [genLoop]
    split
    · exact ih fs st es
    · split
      · exact ih fs _ es
      · split
        · rfl
        · split
          · rfl
          · rename_i fs2 hmv
            rw [ih]
            exact moveFile_dirs hmv


theorem self_mem_ancestors {p : FPath} (h : p ≠ []) : p ∈ ancestors p := by
  have hl : 0 < p.length := List.length_pos.mpr h
  refine List.mem_map.mpr ⟨p.length - 1, ?_, ?_⟩
  · rw [List.mem_range]
    omega
  · rw [Nat.sub_add_cancel hl]
    simp

theorem mkdirp_of_clear {fs : Fs} {p : FPath}
    (hok : ∀ q ∈ ancestors p, isFile fs q = false) :
    mkdirp fs p = some ⟨fs.files, ancestors p ++ fs.dirs⟩ := by
  have hcond : ((ancestors p).any (fun q => isFile fs q)) = false := by
    rw [List.any_eq_false]
    intro q hq
    simp [hok q hq]
  unfold mkdirp
  rw [hcond]
  rfl

/-- C10: in execute mode the generic organizer creates the category's target
directory unconditionally, before iterating files, so the directory exists in
the resulting filesystem even when zero files in the source directory match
the category's extensions — a zero-move execute batch still mutates the
filesystem.  (Hypotheses: the source directory exists — otherwise the method
returns before any mutation — the target path is nonempty, and no regular
file blocks the target path or its ancestors, which would make the mkdir
itself raise.) -/
theorem c10_generic_creates_target_dir (fs : Fs) (srcDir targetDir : FPath)
    (exts : List String) (hsrc : isDir fs srcDir = true) (hne : targetDir ≠ [])
    (hok : ∀ q ∈ ancestors targetDir, isFile fs q = false) :
    targetDir ∈ (organizeGeneric fs srcDir targetDir exts false).fs.dirs := by
  unfold organizeGeneric
  rw [if_neg (by simp [hsrc]), if_neg (by simp)]
  simp only [mkdirp_of_clear hok]
  rw [genLoop_dirs]
  exact List.mem_append.mpr (Or.inl (self_mem_ancestors hne))

/-- C10 witness: a source directory with no files at all still gets the
target directory created by an execute run. -/
theorem c10_witness :
    (["tgt", "Docs"] : FPath)
      ∈ (organizeGeneric ⟨[], [["src"]]⟩ ["src"] ["tgt", "Docs"] [".txt"] false).fs.dirs :=
  c10_generic_creates_target_dir ⟨[], [["src"]]⟩ ["src"] ["tgt", "Docs"] [".txt"]
    (by decide) (by decide) (by decide)

end FileOrg

namespace FileOrg

/-! ## Simulate mode (C6) -/

theorem orgLoop_dry (policy : SubfolderPolicy) (targetDir : FPath) :
    ∀ (l : List FPath) (fs : Fs) (st : OrgStats) (es : List MoveEntry),
    (orgLoop policy targetDir true l fs st es).fs = fs ∧
      (orgLoop policy targetDir true l fs st es).entries = es := by
  intro l
  induction l with
  | nil => intro fs st es; exact ⟨rfl, rfl⟩
  | cons f rest ih =>
    intro fs st es
    simp only [orgLoop]
    cases subfolderFor policy fs f with
    | none => exact ⟨rfl, rfl⟩
    | some sub =>
      simp only [if_true]
      exact ih fs _ es

theorem genLoop_dry (targetDir : FPath) (exts : List String) :
    ∀ (l : List FPath) (fs : Fs) (st : OrgStats) (es : List MoveEntry),
    (genLoop targetDir exts true l fs st es).fs = fs ∧
      (genLoop targetDir exts true l fs st es).entries = es := by
  intro l
  induction l with
  | nil => intro fs st es; exact ⟨rfl, rfl⟩
  | cons f rest ih =>
    intro fs st es
    simp only [genLoop]
    by_cases h : extMatches exts (lastName f)
    · simp only [h, not_true, if_false, if_true]
      exact ih fs _ es
    · simp only [h]
      simp only [if_true, if_pos, not_false_iff]
      exact ih fs st es

theorem runOneCat_dry (cfg : Config) (base srcDir : FPath) (fs : Fs) (name : String)
    (ded : Bool) :
    (runOneCat cfg base srcDir true fs name ded).fs = fs ∧
      (runOneCat cfg base srcDir true fs name ded).entries = [] := by
  unfold runOneCat
  cases ded
  · simp only [if_false, Bool.false_eq_true]
    unfold organizeGeneric
    by_cases h : isDir fs srcDir
    · rw [if_neg (by simp [h]), if_pos rfl]
      exact genLoop_dry _ _ _ fs _ []
    · rw [if_pos (by simp [Bool.not_eq_true] at h ⊢; exact h)]
      exact ⟨rfl, rfl⟩
  · simp only [if_true]
    unfold organizeDedicated
    exact orgLoop_dry _ _ _ fs _ []

theorem runCatList_dry (cfg : Config) (base srcDir : FPath) :
    ∀ (runs : List (String × Bool)) (fs : Fs) (m w : Nat) (es : List MoveEntry),
    (runCatList cfg base srcDir true runs fs m w es).2.1 = fs ∧
      (runCatList cfg base srcDir true runs fs m w es).2.2 = es := by
  intro runs
  induction runs with
  | nil => intro fs m w es; exact ⟨rfl, rfl⟩
  | cons r rest ih =>
    intro fs m w es
    obtain ⟨name, ded⟩ := r
    obtain ⟨h1, h2⟩ := runOneCat_dry cfg base srcDir fs name ded
    simp only [runCatList]
    cases hst : (runOneCat cfg base srcDir true fs name ded).stats with
    | none => simp [h1, h2]
    | some st =>
      rw [h1, h2, List.append_nil]
      exact ih fs _ _ es

/-- C6: simulate (dry-run) mode performs no filesystem mutation and appends
nothing to the ledger; running it twice on an unchanged source directory
yields the identical result (in particular identical counts), since the
first run leaves the filesystem unchanged. -/
theorem c6_simulate_no_mutation (cfg : Config) (base srcDir : FPath)
    (cats : Option (List String)) (fs : Fs) :
    (fileOrganizerOrganize cfg base srcDir true cats fs).fs = fs ∧
      (fileOrganizerOrganize cfg base srcDir true cats fs).entries = [] ∧
      (fileOrganizerOrganize cfg base srcDir true cats fs).saved = none ∧
      fileOrganizerOrganize cfg base srcDir true cats
          ((fileOrganizerOrganize cfg base srcDir true cats fs).fs)
        = fileOrganizerOrganize cfg base srcDir true cats fs := by
  obtain ⟨h1, h2⟩ := runCatList_dry cfg base srcDir (catRuns cfg cats) fs 0 0 []
  have hmain : (fileOrganizerOrganize cfg base srcDir true cats fs).fs = fs ∧
      (fileOrganizerOrganize cfg base srcDir true cats fs).entries = [] ∧
      (fileOrganizerOrganize cfg base srcDir true cats fs).saved = none := by
    unfold fileOrganizerOrganize
    cases hrc : runCatList cfg base srcDir true (catRuns cfg cats) fs 0 0 [] with
    | mk ost rest =>
      obtain ⟨fs1, es⟩ := rest
      rw [hrc] at h1 h2
      cases ost with
      | none => exact ⟨h1, h2, rfl⟩
      | some mw =>
        obtain ⟨moved, would⟩ := mw
        dsimp only
        rw [if_neg (by simp)]
        exact ⟨h1, h2, rfl⟩
  refine ⟨hmain.1, hmain.2.1, hmain.2.2, ?_⟩
  rw [hmain.1]

end FileOrg

namespace FileOrg

/-! ## Ledger persistence (C7) -/

theorem saveManifest_lookup {fs fs' : Fs} {path : FPath} {es : List MoveEntry}
    (h : saveManifest fs path es = some fs') :
    lookupFile fs' path = some (.manifestJson es) := by
  unfold saveManifest at h
  cases hmk : mkdirp fs path.dropLast with
  | none => rw [hmk] at h; exact Option.noConfusion h
  | some fsm =>
    rw [hmk] at h
    dsimp only at h
    split at h
    · exact Option.noConfusion h
    · injection h with h
      subst h
      show lookupF ((path, FileData.manifestJson es) :: eraseFile fsm.files path) path = _
      rw [lookupF_cons]
      simp

/-- C7: provided the batch returns normally, the ledger file is written iff
the run executed at least one relocation — never for a dry run or a zero-move
execute run — and when written it goes once, at batch end, to the fixed
hidden file name in the target root, holding exactly the full ordered record
sequence of the batch. -/
theorem c7_ledger_written_iff (cfg : Config) (base srcDir : FPath) (dryRun : Bool)
    (cats : Option (List String)) (fs : Fs) (st : Nat × Nat)
    (hok : (fileOrganizerOrganize cfg base srcDir dryRun cats fs).stats = some st) :
    ((fileOrganizerOrganize cfg base srcDir dryRun cats fs).saved.isSome
        ↔ (dryRun = false ∧ 0 < st.1)) ∧
      ∀ p, (fileOrganizerOrganize cfg base srcDir dryRun cats fs).saved = some p →
        p = base ++ [manifestFileName] ∧
          lookupFile (fileOrganizerOrganize cfg base srcDir dryRun cats fs).fs p
            = some (.manifestJson (fileOrganizerOrganize cfg base srcDir dryRun cats fs).entries) := by
  unfold fileOrganizerOrganize at hok ⊢
  cases hrc : runCatList cfg base srcDir dryRun (catRuns cfg cats) fs 0 0 [] with
  | mk ost rest =>
    obtain ⟨fs1, es⟩ := rest
    rw [hrc] at hok
    cases ost with
    | none => exact Option.noConfusion hok
    | some mw =>
      obtain ⟨moved, would⟩ := mw
      dsimp only at hok ⊢
      by_cases hcond : dryRun = false ∧ 0 < moved
      · rw [if_pos hcond] at hok ⊢
        cases hmk : mkdirp fs1 base with
        | none =>
          rw [hmk] at hok
          exact Option.noConfusion hok
        | some fs2 =>
          rw [hmk] at hok
          dsimp only at hok ⊢
          cases hsv : saveManifest fs2 (base ++ [manifestFileName]) es with
          | none =>
            rw [hsv] at hok
            exact Option.noConfusion hok
          | some fs3 =>
            rw [hsv] at hok
            dsimp only at hok ⊢
            have hst : st = (moved, would) := by
              injection hok with h
              exact h.symm
            constructor
            · rw [hst]
              simp [hcond]
            · intro p hp
              injection hp with hp
              subst hp
              exact ⟨rfl, saveManifest_lookup hsv⟩
      · rw [if_neg hcond] at hok ⊢
        dsimp only at hok ⊢
        have hst : st = (moved, would) := by
          injection hok with h
          exact h.symm
        constructor
        · rw [hst]
          simp [hcond]
        · intro p hp
          exact Option.noConfusion hp

/-- C7 witness: the end-to-end execute run (2 files moved) persists its
ledger to `tgt/.file_organizer_manifest.json` with both records. -/
theorem c7_witness :
    ((fileOrganizerOrganize cfgE2E ["tgt"] ["src"] false none fsE2E).saved.isSome
        ↔ (false = false ∧ 0 < ((2, 0) : Nat × Nat).1)) ∧
      ∀ p, (fileOrganizerOrganize cfgE2E ["tgt"] ["src"] false none fsE2E).saved = some p →
        p = ["tgt"] ++ [manifestFileName] ∧
          lookupFile (fileOrganizerOrganize cfgE2E ["tgt"] ["src"] false none fsE2E).fs p
            = some (.manifestJson
                (fileOrganizerOrganize cfgE2E ["tgt"] ["src"] false none fsE2E).entries) :=
  c7_ledger_written_iff cfgE2E ["tgt"] ["src"] false none fsE2E (2, 0) (by decide)

end FileOrg

namespace FileOrg

/-! ## Undo semantics (C5) -/

theorem undoLoop_shift (l : List MoveEntry) : ∀ (fs : Fs) (r f : Nat),
    undoLoop l fs r f =
      ⟨(undoLoop l fs 0 0).fs, r + (undoLoop l fs 0 0).restored,
        f + (undoLoop l fs 0 0).failed⟩ := by
  induction l with
  | nil => intro fs r f; simp [undoLoop]
  | cons e t ih =>
    intro fs r f
    simp only [undoLoop]
    cases h : undoStep fs e with
    | mk fs1 ok =>
      cases ok
      · dsimp only
        rw [ih fs1 r (f + 1), ih fs1 0 (0 + 1)]
        simp only [UndoResult.mk.injEq]
        exact ⟨trivial, by omega, by omega⟩
      · dsimp only
        rw [ih fs1 (r + 1) f, ih fs1 (0 + 1) 0]
        simp only [UndoResult.mk.injEq]
        exact ⟨trivial, by omega, by omega⟩

theorem isDir_after_mkdirp {fs fs1 : Fs} {p : FPath} (h : mkdirp fs p = some fs1) :
    isDir fs1 p = true := by
  by_cases hp : p = []
  · subst hp
    simp [isDir]
  · simp only [isDir, mkdirp_dirs h, Bool.or_eq_true, decide_eq_true_eq]
    exact Or.inr (List.mem_append.mpr (Or.inl (self_mem_ancestors hp)))

/-- C5 counterexample: a ledger entry whose destination path exists (so it is
not a "missing destination" entry) is nonetheless counted as failed — not
restored — because recreating the source's parent directory raises an
`OSError` (a regular file `blk` blocks the parent chain).  The claim's
"every other entry is relocated back ... and counted as restored" is
therefore false as stated. -/
theorem c5_counterexample :
    pathExists fsC5 entryC5.destination = true ∧
      undoMoves fsC5 [entryC5] = ⟨fsC5, 0, 1⟩ :=
  ⟨by decide, by decide⟩

/-- C5 amended: undo processes the ledger in reverse insertion order, one
entry at a time, never aborting: (1) undoing `es ++ [e]` first undoes `e`
and then continues with `es` on the resulting state, accumulating counts;
(2) an entry whose destination no longer exists is counted failed with no
filesystem change; (3) an entry whose destination is a regular file, whose
source-parent recreation succeeds and whose source path is not a directory
is relocated back to its original source path (destination vacated) and
counted restored; (4) an entry whose destination exists but whose
source-parent recreation raises is likewise counted failed and processing
continues. -/
theorem c5_undo_reverse_and_cases (fs : Fs) (es : List MoveEntry) (e : MoveEntry) :
    (undoMoves fs (es ++ [e]) =
      ⟨(undoMoves (undoStep fs e).1 es).fs,
        (if (undoStep fs e).2 then 1 else 0) + (undoMoves (undoStep fs e).1 es).restored,
        (if (undoStep fs e).2 then 0 else 1) + (undoMoves (undoStep fs e).1 es).failed⟩) ∧
    (pathExists fs e.destination = false → undoStep fs e = (fs, false)) ∧
    (∀ (c : FileData) (fs1 : Fs), lookupFile fs e.destination = some c →
      mkdirp fs e.source.dropLast = some fs1 →
      isDir fs1 e.source = false →
      (undoStep fs e).2 = true ∧
        lookupFile (undoStep fs e).1 e.source = some c ∧
        (e.source ≠ e.destination → lookupFile (undoStep fs e).1 e.destination = none)) ∧
    (pathExists fs e.destination = true → mkdirp fs e.source.dropLast = none →
      undoStep fs e = (fs, false)) := by
  refine ⟨?_, ?_, ?_, ?_⟩
  · unfold undoMoves
    rw [List.reverse_append]
    simp only [List.reverse_cons, List.reverse_nil, List.nil_append, List.singleton_append]
    simp only [undoLoop]
    cases h : undoStep fs e with
    | mk fs1 ok =>
      cases ok
      · dsimp only
        rw [undoLoop_shift es.reverse fs1 0 (0 + 1)]
        simp only [UndoResult.mk.injEq]
        exact ⟨trivial, by simp, by simp⟩
      · dsimp only
        rw [undoLoop_shift es.reverse fs1 (0 + 1) 0]
        simp only [UndoResult.mk.injEq]
        exact ⟨trivial, by simp, by simp⟩
  · intro h
    unfold undoStep
    rw [if_pos (by simp [h])]
  · intro c fs1 hc hmk hdir
    have hc1 : lookupFile fs1 e.destination = some c := by
      unfold lookupFile at hc ⊢
      rw [mkdirp_files hmk]
      exact hc
    have hpar : isDir fs1 e.source.dropLast = true := isDir_after_mkdirp hmk
    have hmv := moveFile_std hc1 hdir hpar
    have hstep : undoStep fs e =
        (⟨(e.source, c) :: eraseFile (eraseFile fs1.files e.destination) e.source,
          fs1.dirs⟩, true) := by
      unfold undoStep
      rw [if_neg (by simp [pathExists, isFile, hc]), hmk]
      dsimp only
      rw [hmv]
    rw [hstep]
    refine ⟨rfl, ?_, ?_⟩
    · show lookupF ((e.source, c) :: eraseFile (eraseFile fs1.files e.destination) e.source)
        e.source = some c
      rw [lookupF_cons]
      simp
    · intro hne
      show lookupF ((e.source, c) :: eraseFile (eraseFile fs1.files e.destination) e.source)
        e.destination = none
      rw [lookupF_cons, if_neg hne, lookupF_eraseFile, if_neg (fun h => hne h),
        lookupF_eraseFile, if_pos rfl]
  · intro hex hmk
    unfold undoStep
    rw [if_neg (by simp [hex]), hmk]

/-- C5 witness: a missing-destination entry fails with no filesystem change,
and a well-formed entry is restored to its source with the destination's
content, the destination vacated. -/
theorem c5_witness :
    undoStep (⟨[], []⟩ : Fs) entryC5 = (⟨[], []⟩, false) ∧
      ((undoStep fsC5b entryC5b).2 = true ∧
        lookupFile (undoStep fsC5b entryC5b).1 entryC5b.source = some (.bytes [7]) ∧
        lookupFile (undoStep fsC5b entryC5b).1 entryC5b.destination = none) :=
  ⟨(c5_undo_reverse_and_cases ⟨[], []⟩ [] entryC5).2.1 (by decide),
   by
    obtain ⟨h1, h2, h3⟩ := (c5_undo_reverse_and_cases fsC5b [] entryC5b).2.2.1
      (.bytes [7]) ⟨[(["d.txt"], .bytes [7])], [["s"], ["s"]]⟩ (by decide) (by decide)
      (by decide)
    exact ⟨h1, h2, h3 (by decide)⟩⟩

end FileOrg

namespace FileOrg

/-! ## Duplicate-naming facts (C4) -/

theorem stem_append_suffix (nm : String) : stemOf nm ++ suffixOf nm = nm := by
  unfold stemOf suffixOf splitName
  dsimp only
  cases h : rfindDot nm.data with
  | none => simp
  | some i =>
    dsimp only
    by_cases hc : 0 < i ∧ i + 1 < nm.data.length
    · rw [if_pos hc]
      apply String.ext
      simp
    · rw [if_neg hc]
      simp

theorem repr_data_ne_nil (k : Nat) : (Nat.repr k).data ≠ [] := by
  have : (Nat.repr k).data = Nat.toDigits 10 k := by
    simp [Nat.repr, List.asString]
  rw [this]
  exact toDigits_ten_ne_nil k

theorem dupName_inj (nm : String) {j k : Nat} (h : dupName nm j = dupName nm k) : j = k := by
  unfold dupName at h
  have hd := congrArg String.data h
  simp only [String.data_append] at hd
  rw [List.append_assoc, List.append_assoc, List.append_assoc, List.append_assoc] at hd
  have h1 := List.append_cancel_left hd
  have h2 := List.append_cancel_left h1
  have h3 := List.append_cancel_right h2
  exact repr_nat_inj j k (String.ext h3)

theorem dupName_ne (nm : String) (k : Nat) : dupName nm k ≠ nm := by
  intro h
  have hd := congrArg String.data h
  unfold dupName at hd
  simp only [String.data_append] at hd
  have hlen := congrArg List.length hd
  simp only [List.length_append] at hlen
  have h2 := congrArg String.data (stem_append_suffix nm)
  simp only [String.data_append] at h2
  have h2l := congrArg List.length h2
  simp only [List.length_append] at h2l
  have hu : ("_" : String).data.length = 1 := rfl
  have hr : 0 < (Nat.repr k).data.length := List.length_pos.mpr (repr_data_ne_nil k)
  omega

theorem dupProbePath_inj (destDir : FPath) (nm : String) {j k : Nat}
    (h : dupProbePath destDir nm j = dupProbePath destDir nm k) : j = k := by
  unfold dupProbePath at h
  by_cases hj : j = 0 <;> by_cases hk : k = 0
  · omega
  · rw [if_pos hj, if_neg hk] at h
    have := List.append_cancel_left h
    exact absurd (List.cons.inj this).1.symm (dupName_ne nm k)
  · rw [if_neg hj, if_pos hk] at h
    have := List.append_cancel_left h
    exact absurd (List.cons.inj this).1 (dupName_ne nm j)
  · rw [if_neg hj, if_neg hk] at h
    have := List.append_cancel_left h
    exact dupName_inj nm (List.cons.inj this).1

theorem dropLast_dupProbePath (destDir : FPath) (nm : String) (k : Nat) :
    (dupProbePath destDir nm k).dropLast = destDir := by
  unfold dupProbePath
  split <;> simp

/-- A probe run over `j` occupied names ending at a free one returns the
`j`-th candidate, provided the fuel exceeds `j`. -/
theorem probeDest_run (fs : Fs) (destDir : FPath) (stem sfx : String) :
    ∀ (j fuel c : Nat),
      (∀ t, t < j → pathExists fs (destDir ++ [stem ++ "_" ++ Nat.repr (c + t) ++ sfx]) = true) →
      pathExists fs (destDir ++ [stem ++ "_" ++ Nat.repr (c + j) ++ sfx]) = false →
      j < fuel →
      probeDest fs destDir stem sfx fuel c
        = some (destDir ++ [stem ++ "_" ++ Nat.repr (c + j) ++ sfx]) := by
  intro j
  induction j with
  | zero =>
    intro fuel c htaken hfree hfuel
    rw [Nat.add_zero] at hfree
    match fuel, hfuel with
    | f + 1, _ =>
      simp only [probeDest, Nat.add_zero]
      rw [if_neg (by simp [hfree])]
  | succ j ih =>
    intro fuel c htaken hfree hfuel
    have h0 := htaken 0 (Nat.succ_pos j)
    rw [Nat.add_zero] at h0
    match fuel, hfuel with
    | f + 1, hf =>
      simp only [probeDest]
      rw [if_pos (by simp [h0])]
      have harith : ∀ t, (c + 1) + t = c + (t + 1) := by omega
      have htaken' : ∀ t, t < j →
          pathExists fs (destDir ++ [stem ++ "_" ++ Nat.repr ((c + 1) + t) ++ sfx]) = true := by
        intro t ht
        rw [harith t]
        exact htaken (t + 1) (by omega)
      have hfree' :
          pathExists fs (destDir ++ [stem ++ "_" ++ Nat.repr ((c + 1) + j) ++ sfx]) = false := by
        rw [harith j]
        exact hfree
      rw [ih f (c + 1) htaken' hfree' (by omega), harith j]

theorem mem_keys_of_lookupF {files : List (FPath × FileData)} {p : FPath}
    (h : (lookupF files p).isSome = true) : p ∈ files.map Prod.fst := by
  unfold lookupF at h
  cases hf : files.find? (fun e => decide (e.1 = p)) with
  | none => rw [hf] at h; cases h
  | some e =>
    have hmem := List.mem_of_find?_eq_some hf
    have hp := List.find?_some hf
    simp only [decide_eq_true_eq] at hp
    exact hp ▸ List.mem_map.mpr ⟨e, hmem, rfl⟩

theorem distinct_files_le (fs : Fs) (ps : List FPath) (hnd : ps.Nodup)
    (hall : ∀ p ∈ ps, isFile fs p = true) : ps.length ≤ fs.files.length := by
  have hsub : ps ⊆ fs.files.map Prod.fst := by
    intro p hp
    exact mem_keys_of_lookupF (hall p hp)
  calc ps.length ≤ (fs.files.map Prod.fst).length :=
        (List.subperm_of_subset hnd hsub).length_le
    _ = fs.files.length := List.length_map _ _

end FileOrg

namespace FileOrg

theorem pathExists_congr (fs fs' : Fs) (p : FPath)
    (hf : lookupF fs'.files p = lookupF fs.files p) (hd : fs'.dirs = fs.dirs) :
    pathExists fs' p = pathExists fs p := by
  unfold pathExists isFile lookupFile isDir
  rw [hf, hd]

theorem isFile_false_of_pathExists_false {fs : Fs} {p : FPath}
    (h : pathExists fs p = false) : isFile fs p = false := by
  unfold pathExists at h
  exact (Bool.or_eq_false_iff.mp h).1

theorem isDir_false_of_pathExists_false {fs : Fs} {p : FPath}
    (h : pathExists fs p = false) : isDir fs p = false := by
  unfold pathExists at h
  exact (Bool.or_eq_false_iff.mp h).2

theorem pathExists_of_isFile {fs : Fs} {p : FPath} (h : isFile fs p = true) :
    pathExists fs p = true := by
  unfold pathExists
  rw [h]
  rfl

theorem dupProbePath_pos (destDir : FPath) (nm : String) {k : Nat} (hk : k ≠ 0) :
    dupProbePath destDir nm k = destDir ++ [dupName nm k] := by
  unfold dupProbePath
  rw [if_neg hk]

/-- The inductive heart of C4: once the first same-named file has taken the
unmodified destination name (`i = 1` there), each later file finds the
candidates `_1 … _(i-1)` occupied and the candidate `_i` free, so the loop
assigns suffixes in strictly increasing order and touches no other file. -/
theorem c4_genLoop_aux (fs0 : Fs) (targetDir : FPath) (exts : List String) (nm : String)
    (l0 : List FPath) (hmatch : extMatches exts nm = true)
    (htdir : isDir fs0 targetDir = true) :
    ∀ (l : List FPath) (i : Nat) (fsI : Fs) (st : OrgStats) (es : List MoveEntry),
      1 ≤ i →
      (∀ f ∈ l, lastName f = nm) →
      (∀ f ∈ l, f.dropLast ≠ targetDir) →
      l.Nodup →
      (∀ f ∈ l, f ∈ l0) →
      fsI.dirs = fs0.dirs →
      (∀ f ∈ l, lookupF fsI.files f = lookupF fs0.files f) →
      (∀ f ∈ l, isFile fs0 f = true) →
      (∀ k, k < i → isFile fsI (dupProbePath targetDir nm k) = true) →
      (∀ k, i ≤ k → k < i + l.length → pathExists fsI (dupProbePath targetDir nm k) = false) →
      (∀ p c, lookupF fs0.files p = some c → p ∉ l0 → lookupF fsI.files p = some c) →
      (genLoop targetDir exts false l fsI st es).stats
          = some ⟨st.moved + l.length, st.wouldMove, st.duplicates + l.length⟩ ∧
        (genLoop targetDir exts false l fsI st es).entries
          = es ++ (List.range l.length).map
              (fun t => ⟨l.getD t [], dupProbePath targetDir nm (i + t)⟩) ∧
        (∀ p c, lookupF fs0.files p = some c → p ∉ l0 →
          lookupF (genLoop targetDir exts false l fsI st es).fs.files p = some c) := by
  intro l
  induction l with
  | nil =>
    intro i fsI st es _ _ _ _ _ _ _ _ _ _ hframe
    refine ⟨by simp [genLoop], by simp [genLoop], ?_⟩
    intro p c h1 h2
    exact hframe p c h1 h2
  | cons f rest ih =>
    intro i fsI st es hi hnm hout hnd hsub hdirs hsrc hfile0 hcands hfree hframe
    have hfm : f ∈ f :: rest := List.mem_cons_self f rest
    have hlast : lastName f = nm := hnm f hfm
    obtain ⟨cf, hcf⟩ : ∃ c, lookupF fs0.files f = some c := by
      have hx := hfile0 f hfm
      unfold isFile lookupFile at hx
      exact Option.isSome_iff_exists.mp hx
    have hsrcf : lookupF fsI.files f = some cf := by
      rw [hsrc f hfm]
      exact hcf
    -- (A) duplicate resolution probes to candidate i
    have hnameEq : ∀ k, k ≠ 0 →
        targetDir ++ [stemOf nm ++ "_" ++ Nat.repr k ++ suffixOf nm]
          = dupProbePath targetDir nm k := by
      intro k hk
      rw [dupProbePath_pos targetDir nm hk]
      rfl
    have hfuelLB : i ≤ fsI.files.length := by
      have hlen := distinct_files_le fsI ((List.range i).map (dupProbePath targetDir nm))
        (List.Nodup.map (fun a b hab => dupProbePath_inj targetDir nm hab) (List.nodup_range i))
        (by
          intro p hp
          obtain ⟨k, hk, rfl⟩ := List.mem_map.mp hp
          exact hcands k (List.mem_range.mp hk))
      simpa using hlen
    have hprobe : probeDest fsI targetDir (stemOf nm) (suffixOf nm) (probeFuel fsI) 1
        = some (dupProbePath targetDir nm i) := by
      have htaken : ∀ t, t < i - 1 →
          pathExists fsI (targetDir ++ [stemOf nm ++ "_" ++ Nat.repr (1 + t) ++ suffixOf nm])
            = true := by
        intro t ht
        rw [hnameEq (1 + t) (by omega)]
        exact pathExists_of_isFile (hcands (1 + t) (by omega))
      have hfr : pathExists fsI
          (targetDir ++ [stemOf nm ++ "_" ++ Nat.repr (1 + (i - 1)) ++ suffixOf nm]) = false := by
        rw [show 1 + (i - 1) = i by omega, hnameEq i (by omega)]
        exact hfree i (Nat.le_refl i) (by simp)
      have hrun := probeDest_run fsI targetDir (stemOf nm) (suffixOf nm) (i - 1)
        (probeFuel fsI) 1 htaken hfr (by unfold probeFuel; omega)
      rw [hrun, show 1 + (i - 1) = i by omega, hnameEq i (by omega)]
    have hresolve : resolveDest fsI targetDir nm = some (dupProbePath targetDir nm i, true) := by
      unfold resolveDest
      have hex0 : pathExists fsI (targetDir ++ [nm]) = true := by
        have h0 := hcands 0 (by omega)
        have he : dupProbePath targetDir nm 0 = targetDir ++ [nm] := by
          unfold dupProbePath
          simp
        rw [he] at h0
        exact pathExists_of_isFile h0
      rw [if_pos (by simp [hex0]), hprobe]
      rfl
    -- (B) the move
    have hdirI : isDir fsI (dupProbePath targetDir nm i).dropLast = true := by
      rw [dropLast_dupProbePath]
      unfold isDir at htdir ⊢
      rw [hdirs]
      exact htdir
    have hnotdir : isDir fsI (dupProbePath targetDir nm i) = false :=
      isDir_false_of_pathExists_false (hfree i (Nat.le_refl i) (by simp))
    have hmv : moveFile fsI f (dupProbePath targetDir nm i)
        = some ⟨(dupProbePath targetDir nm i, cf)
            :: eraseFile (eraseFile fsI.files f) (dupProbePath targetDir nm i), fsI.dirs⟩ :=
      moveFile_std hsrcf hnotdir hdirI
    -- the successor state
    have hlook : ∀ p,
        lookupF ((dupProbePath targetDir nm i, cf)
            :: eraseFile (eraseFile fsI.files f) (dupProbePath targetDir nm i)) p
          = if dupProbePath targetDir nm i = p then some cf
            else if f = p then none
            else lookupF fsI.files p := by
      intro p
      rw [lookupF_cons, lookupF_eraseFile, lookupF_eraseFile]
      by_cases h1 : dupProbePath targetDir nm i = p
      · simp [h1]
      · simp [h1]
    -- one unfolding of the loop
    have hred : genLoop targetDir exts false (f :: rest) fsI st es
        = genLoop targetDir exts false rest
            ⟨(dupProbePath targetDir nm i, cf)
              :: eraseFile (eraseFile fsI.files f) (dupProbePath targetDir nm i), fsI.dirs⟩
            ⟨st.moved + 1, st.wouldMove, st.duplicates + 1⟩
            (es ++ [⟨f, dupProbePath targetDir nm i⟩]) := by
      simp only [genLoop, hlast]
      rw [if_neg (by simp [hmatch]), if_neg (by simp), hresolve]
      dsimp only
      rw [hmv]
      rfl
    obtain ⟨hfnotin, hndrest⟩ := List.nodup_cons.mp hnd
    have hcne : ∀ f' ∈ rest, dupProbePath targetDir nm i ≠ f' := by
      intro f' hf' he
      exact hout f' (List.mem_cons_of_mem f hf') (by rw [← he, dropLast_dupProbePath])
    have hfne : ∀ f' ∈ rest, f ≠ f' := by
      intro f' hf' he
      exact hfnotin (he ▸ hf')
    obtain ⟨s1, s2, s3⟩ := ih (i + 1)
      ⟨(dupProbePath targetDir nm i, cf)
        :: eraseFile (eraseFile fsI.files f) (dupProbePath targetDir nm i), fsI.dirs⟩
      ⟨st.moved + 1, st.wouldMove, st.duplicates + 1⟩
      (es ++ [⟨f, dupProbePath targetDir nm i⟩])
      (by omega)
      (fun f' hf' => hnm f' (List.mem_cons_of_mem f hf'))
      (fun f' hf' => hout f' (List.mem_cons_of_mem f hf'))
      hndrest
      (fun f' hf' => hsub f' (List.mem_cons_of_mem f hf'))
      hdirs
      (by
        intro f' hf'
        show lookupF _ f' = _
        rw [hlook f', if_neg (hcne f' hf'), if_neg (hfne f' hf')]
        exact hsrc f' (List.mem_cons_of_mem f hf'))
      (fun f' hf' => hfile0 f' (List.mem_cons_of_mem f hf'))
      (by
        intro k hk
        show (lookupF ((dupProbePath targetDir nm i, cf)
          :: eraseFile (eraseFile fsI.files f) (dupProbePath targetDir nm i))
          (dupProbePath targetDir nm k)).isSome = true
        by_cases hki : k = i
        · subst hki
          rw [hlook, if_pos rfl]
          rfl
        · have hne2 : f ≠ dupProbePath targetDir nm k := by
            intro he
            exact hout f hfm (by rw [he, dropLast_dupProbePath])
          rw [hlook, if_neg (fun he => hki (dupProbePath_inj targetDir nm he).symm),
            if_neg hne2]
          exact hcands k (by omega))
      (by
        intro k hk1 hk2
        have hne1 : dupProbePath targetDir nm i ≠ dupProbePath targetDir nm k :=
          fun he => (by omega : i ≠ k) (dupProbePath_inj targetDir nm he)
        have hne2 : f ≠ dupProbePath targetDir nm k := by
          intro he
          exact hout f hfm (by rw [he, dropLast_dupProbePath])
        have heq : lookupF ((dupProbePath targetDir nm i, cf)
            :: eraseFile (eraseFile fsI.files f) (dupProbePath targetDir nm i))
            (dupProbePath targetDir nm k) = lookupF fsI.files (dupProbePath targetDir nm k) := by
          rw [hlook, if_neg hne1, if_neg hne2]
        rw [pathExists_congr fsI
          ⟨(dupProbePath targetDir nm i, cf)
            :: eraseFile (eraseFile fsI.files f) (dupProbePath targetDir nm i), fsI.dirs⟩
          (dupProbePath targetDir nm k) heq rfl]
        exact hfree k (by omega) (by simp only [List.length_cons] at hk2 ⊢; omega))
      (by
        intro p c h1 h2
        have hnef : f ≠ p := fun he => h2 (he ▸ hsub f hfm)
        have hnec : dupProbePath targetDir nm i ≠ p := by
          intro he
          have hIc := hframe p c h1 h2
          have hfl : isFile fsI (dupProbePath targetDir nm i) = true := by
            unfold isFile lookupFile
            rw [he, hIc]
            rfl
          have hff := isFile_false_of_pathExists_false
            (hfree i (Nat.le_refl i) (by simp))
          rw [hfl] at hff
          cases hff
        show lookupF _ p = some c
        rw [hlook, if_neg hnec, if_neg hnef]
        exact hframe p c h1 h2)
    refine ⟨?_, ?_, ?_⟩
    · rw [hred, s1]
      simp only [List.length_cons, Option.some.injEq, OrgStats.mk.injEq]
      refine ⟨by omega, trivial, by omega⟩
    · rw [hred, s2]
      rw [List.length_cons, List.range_succ_eq_map, List.map_cons, List.map_map,
        List.append_assoc]
      simp only [List.singleton_append, List.getD_cons_zero, Nat.add_zero]
      congr 1
      congr 1
      apply List.map_congr_left
      intro t ht
      simp only [Function.comp, List.getD_cons_succ]
      rw [show i + (t + 1) = i + 1 + t from by omega]
    · intro p c h1 h2
      rw [hred]
      exact s3 p c h1 h2

/-- C4: for N files that each individually resolve to the same destination
name — same file name `nm` with an eligible extension, destined for the same
existing target directory, all probed names initially free — executing them
in enumeration order gives the 1st file the unmodified name and assigns the
suffixes `_1, …, _(N-1)` to the 2nd through Nth files in that order, each
chosen as the first probed name that does not exist; the duplicates counter
registers N-1; and no pre-existing file outside the enumerated sources is
overwritten or otherwise touched. -/
theorem c4_duplicate_naming (fs : Fs) (targetDir : FPath) (exts : List String)
    (nm : String) (l : List FPath)
    (hnm : ∀ f ∈ l, lastName f = nm)
    (hnodup : l.Nodup)
    (hfiles : ∀ f ∈ l, isFile fs f = true)
    (hout : ∀ f ∈ l, f.dropLast ≠ targetDir)
    (hmatch : extMatches exts nm = true)
    (htdir : isDir fs targetDir = true)
    (hfree : ∀ k, k < l.length → pathExists fs (dupProbePath targetDir nm k) = false) :
    (genLoop targetDir exts false l fs ⟨0, 0, 0⟩ []).stats
        = some ⟨l.length, 0, l.length - 1⟩ ∧
      (genLoop targetDir exts false l fs ⟨0, 0, 0⟩ []).entries
        = (List.range l.length).map
            (fun t => ⟨l.getD t [], dupProbePath targetDir nm t⟩) ∧
      (∀ p c, lookupF fs.files p = some c → p ∉ l →
        lookupF (genLoop targetDir exts false l fs ⟨0, 0, 0⟩ []).fs.files p = some c) := by
  cases l with
  | nil => exact ⟨by simp [genLoop], by simp [genLoop], fun p c h1 _ => h1⟩
  | cons f rest =>
    have hfm : f ∈ f :: rest := List.mem_cons_self f rest
    have hlast : lastName f = nm := hnm f hfm
    obtain ⟨cf, hcf⟩ : ∃ c, lookupF fs.files f = some c := by
      have hx := hfiles f hfm
      unfold isFile lookupFile at hx
      exact Option.isSome_iff_exists.mp hx
    have h0 : dupProbePath targetDir nm 0 = targetDir ++ [nm] := by
      unfold dupProbePath
      simp
    have h0free : pathExists fs (targetDir ++ [nm]) = false := by
      rw [← h0]
      exact hfree 0 (by simp)
    have hresolve : resolveDest fs targetDir nm = some (targetDir ++ [nm], false) := by
      unfold resolveDest
      rw [if_neg (by simp [h0free])]
    have hdirI : isDir fs (targetDir ++ [nm]).dropLast = true := by
      have hdl : (targetDir ++ [nm]).dropLast = targetDir := by simp
      rw [hdl]
      exact htdir
    have hmv : moveFile fs f (targetDir ++ [nm])
        = some ⟨(targetDir ++ [nm], cf) :: eraseFile (eraseFile fs.files f) (targetDir ++ [nm]),
            fs.dirs⟩ :=
      moveFile_std hcf (isDir_false_of_pathExists_false h0free) hdirI
    have hred : genLoop targetDir exts false (f :: rest) fs ⟨0, 0, 0⟩ []
        = genLoop targetDir exts false rest
            ⟨(targetDir ++ [nm], cf) :: eraseFile (eraseFile fs.files f) (targetDir ++ [nm]),
              fs.dirs⟩ ⟨1, 0, 0⟩ [⟨f, targetDir ++ [nm]⟩] := by
      simp only [genLoop, hlast]
      rw [if_neg (by simp [hmatch]), if_neg (by simp), hresolve]
      dsimp only
      rw [hmv]
      rfl
    have hlook : ∀ p,
        lookupF ((targetDir ++ [nm], cf) :: eraseFile (eraseFile fs.files f) (targetDir ++ [nm])) p
          = if targetDir ++ [nm] = p then some cf
            else if f = p then none
            else lookupF fs.files p := by
      intro p
      rw [lookupF_cons, lookupF_eraseFile, lookupF_eraseFile]
      by_cases h1 : targetDir ++ [nm] = p
      · simp [h1]
      · simp [h1]
    obtain ⟨hfnotin, hndrest⟩ := List.nodup_cons.mp hnodup
    have hcne : ∀ f' ∈ rest, targetDir ++ [nm] ≠ f' := by
      intro f' hf' he
      exact hout f' (List.mem_cons_of_mem f hf') (by rw [← he]; simp)
    have hfne : ∀ f' ∈ rest, f ≠ f' := by
      intro f' hf' he
      exact hfnotin (he ▸ hf')
    obtain ⟨s1, s2, s3⟩ := c4_genLoop_aux fs targetDir exts nm (f :: rest) hmatch htdir rest 1
      ⟨(targetDir ++ [nm], cf) :: eraseFile (eraseFile fs.files f) (targetDir ++ [nm]), fs.dirs⟩
      ⟨1, 0, 0⟩ [⟨f, targetDir ++ [nm]⟩]
      (Nat.le_refl 1)
      (fun f' hf' => hnm f' (List.mem_cons_of_mem f hf'))
      (fun f' hf' => hout f' (List.mem_cons_of_mem f hf'))
      hndrest
      (fun f' hf' => List.mem_cons_of_mem f hf')
      rfl
      (by
        intro f' hf'
        show lookupF _ f' = _
        rw [hlook f', if_neg (hcne f' hf'), if_neg (hfne f' hf')])
      (fun f' hf' => hfiles f' (List.mem_cons_of_mem f hf'))
      (by
        intro k hk
        have hk0 : k = 0 := by omega
        subst hk0
        show (lookupF _ (dupProbePath targetDir nm 0)).isSome = true
        rw [h0, hlook, if_pos rfl]
        rfl)
      (by
        intro k hk1 hk2
        have hne1 : targetDir ++ [nm] ≠ dupProbePath targetDir nm k := by
          rw [← h0]
          exact fun he => (by omega : (0 : Nat) ≠ k) (dupProbePath_inj targetDir nm he)
        have hne2 : f ≠ dupProbePath targetDir nm k := by
          intro he
          exact hout f hfm (by rw [he, dropLast_dupProbePath])
        have heq : lookupF ((targetDir ++ [nm], cf)
            :: eraseFile (eraseFile fs.files f) (targetDir ++ [nm]))
            (dupProbePath targetDir nm k) = lookupF fs.files (dupProbePath targetDir nm k) := by
          rw [hlook, if_neg hne1, if_neg hne2]
        rw [pathExists_congr fs
          ⟨(targetDir ++ [nm], cf) :: eraseFile (eraseFile fs.files f) (targetDir ++ [nm]),
            fs.dirs⟩ (dupProbePath targetDir nm k) heq rfl]
        exact hfree k (by simp only [List.length_cons] at hk2 ⊢; omega))
      (by
        intro p c h1 h2
        have hnef : f ≠ p := fun he => h2 (he ▸ hfm)
        have hnec : targetDir ++ [nm] ≠ p := by
          intro he
          have hfl : isFile fs (targetDir ++ [nm]) = true := by
            unfold isFile lookupFile
            rw [he, h1]
            rfl
          have hff := isFile_false_of_pathExists_false h0free
          rw [hfl] at hff
          cases hff
        show lookupF _ p = some c
        rw [hlook, if_neg hnec, if_neg hnef]
        exact h1)
    refine ⟨?_, ?_, ?_⟩
    · rw [hred, s1]
      simp only [List.length_cons, Option.some.injEq, OrgStats.mk.injEq]
      refine ⟨by omega, trivial, by omega⟩
    · rw [hred, s2]
      rw [List.length_cons, List.range_succ_eq_map, List.map_cons, List.map_map]
      simp only [List.singleton_append, List.getD_cons_zero, Nat.add_zero, h0]
      congr 1
      apply List.map_congr_left
      intro t ht
      simp only [Function.comp, List.getD_cons_succ]
      rw [show Nat.succ t = 1 + t from by omega]
    · intro p c h1 h2
      rw [hred]
      exact s3 p c h1 h2

/-- C4 witness: three files named `a.txt` get `a.txt`, `a_1.txt`, `a_2.txt`
in enumeration order, the duplicates counter reads 2, and the pre-existing
file `keep.txt` is untouched. -/
theorem c4_witness :
    (genLoop ["t"] [".txt"] false lC4 fsC4 ⟨0, 0, 0⟩ []).stats = some ⟨3, 0, 2⟩ ∧
      (genLoop ["t"] [".txt"] false lC4 fsC4 ⟨0, 0, 0⟩ []).entries
        = (List.range 3).map (fun t => ⟨lC4.getD t [], dupProbePath ["t"] "a.txt" t⟩) ∧
      lookupF (genLoop ["t"] [".txt"] false lC4 fsC4 ⟨0, 0, 0⟩ []).fs.files ["keep.txt"]
        = some (.bytes [9]) := by
  obtain ⟨s1, s2, s3⟩ := c4_duplicate_naming fsC4 ["t"] [".txt"] "a.txt" lC4
    (by decide) (by decide) (by decide) (by decide) (by decide) (by decide) (by decide)
  exact ⟨s1, s2, s3 ["keep.txt"] (.bytes [9]) (by decide) (by decide)⟩

/-! ## Path-side lemmas for the round-trip law (C1) -/

theorem pref_len {base x : FPath} (h : x.take base.length = base) : base.length ≤ x.length := by
  have hl := congrArg List.length h
  rw [List.length_take] at hl
  omega

theorem baseExt_append {base x : FPath} (h : x.take base.length = base) (y : FPath) :
    (x ++ y).take base.length = base := by
  rw [List.take_append_of_le_length (pref_len h)]
  exact h

theorem ancestors_side {base p : FPath} (h : p.take base.length = base) :
    ∀ q ∈ ancestors p, base.take q.length = q ∨ q.take base.length = base := by
  intro q hq
  obtain ⟨k, hk, rfl⟩ := List.mem_map.mp hq
  rw [List.mem_range] at hk
  by_cases hc : k + 1 ≤ base.length
  · left
    have h1 : (p.take (k + 1)).length = k + 1 := List.length_take_of_le (by omega)
    rw [h1]
    calc base.take (k + 1) = (p.take base.length).take (k + 1) := by rw [h]
      _ = p.take (min (k + 1) base.length) := by rw [List.take_take]
      _ = p.take (k + 1) := by rw [Nat.min_eq_left hc]
  · right
    calc (p.take (k + 1)).take base.length = p.take (min base.length (k + 1)) :=
          List.take_take base.length (k + 1) p
      _ = p.take base.length := by rw [Nat.min_eq_left (by omega)]
      _ = base := h

theorem srcChild_len {srcDir s : FPath} (hs : s.dropLast = srcDir) (hsne : s ≠ []) :
    s.length = srcDir.length + 1 := by
  have hl := congrArg List.length hs
  rw [List.length_dropLast] at hl
  have : 0 < s.length := List.length_pos.mpr hsne
  omega

theorem srcChild_ne_baseExt {srcDir base : FPath}
    (hnp1 : srcDir.take base.length ≠ base) (hnp2 : base.take srcDir.length ≠ srcDir)
    {s x : FPath} (hs : s.dropLast = srcDir) (hsne : s ≠ [])
    (hx : x.take base.length = base) : s ≠ x := by
  intro he
  subst he
  have hlen : s.length = srcDir.length + 1 := srcChild_len hs hsne
  have hble : base.length ≤ s.length := pref_len hx
  by_cases hc : base.length ≤ srcDir.length
  · apply hnp1
    have h1 : srcDir.take base.length = s.take base.length := by
      rw [← hs, List.dropLast_eq_take, List.take_take, hlen]
      congr 1
      omega
    rw [h1, hx]
  · have hbl : base.length = s.length := by omega
    apply hnp2
    have hbs : base = s := by
      rw [← hx, hbl, List.take_length]
    calc base.take srcDir.length = s.take srcDir.length := by rw [hbs]
      _ = s.dropLast := by rw [List.dropLast_eq_take, hlen, Nat.add_sub_cancel]
      _ = srcDir := hs

theorem srcChild_ne_basePre {srcDir base : FPath}
    (hnp2 : base.take srcDir.length ≠ srcDir)
    {s d : FPath} (hs : s.dropLast = srcDir) (hsne : s ≠ [])
    (hd : base.take d.length = d) : s ≠ d := by
  intro he
  subst he
  have hlen : s.length = srcDir.length + 1 := srcChild_len hs hsne
  have hdl : s.length ≤ base.length := by
    have hx := congrArg List.length hd
    rw [List.length_take] at hx
    omega
  apply hnp2
  calc base.take srcDir.length = (base.take s.length).take srcDir.length := by
        rw [List.take_take]; congr 1; omega
    _ = s.take srcDir.length := by rw [hd]
    _ = srcDir := by
        rw [List.dropLast_eq_take, hlen, Nat.add_sub_cancel] at hs; exact hs

theorem srcChild_ne_srcPre {srcDir : FPath} {s q : FPath}
    (hs : s.dropLast = srcDir) (hsne : s ≠ [])
    (hq : srcDir.take q.length = q) : s ≠ q := by
  intro he
  subst he
  have hlen : s.length = srcDir.length + 1 := srcChild_len hs hsne
  have : s.length ≤ srcDir.length := by
    have hx := congrArg List.length hq
    rw [List.length_take] at hx
    omega
  omega

theorem manifest_ne_long {base x : FPath} {mfn : String}
    (hx : base.length + 2 ≤ x.length) : base ++ [mfn] ≠ x := by
  intro he
  have := congrArg List.length he
  simp only [List.length_append, List.length_cons, List.length_nil] at this
  omega

end FileOrg

namespace FileOrg

/-! ## Inversion and shape lemmas for the execute loop (C1) -/

theorem find?_one {α : Type} (pr : α → Bool) (a : α) :
    List.find? pr [a] = if pr a = true then some a else none := by
  cases h : pr a
  · simp [List.find?, h]
  · simp [List.find?, h]

theorem ancestors_self_pref {p : FPath} :
    ∀ q ∈ ancestors p, p.take q.length = q := by
  intro q hq
  obtain ⟨k, hk, rfl⟩ := List.mem_map.mp hq
  rw [List.mem_range] at hk
  rw [List.length_take_of_le (by omega)]

theorem dst_ne_srcPre {base srcDir : FPath} (hnp1 : srcDir.take base.length ≠ base)
    {x q : FPath} (hx : x.take base.length = base) (hq : srcDir.take q.length = q) :
    x ≠ q := by
  intro he
  subst he
  apply hnp1
  have hbl := pref_len hx
  calc srcDir.take base.length = (srcDir.take x.length).take base.length := by
        rw [List.take_take]; congr 1; omega
    _ = x.take base.length := by rw [hq]
    _ = base := hx

theorem execChar_nil (fs0 : Fs) (p : FPath) : execChar fs0 [] p = lookupF fs0.files p := by
  unfold execChar
  simp [List.find?]

theorem lookupF_none_of_isFile_false {fs : Fs} {p : FPath} (h : isFile fs p = false) :
    lookupF fs.files p = none := by
  unfold isFile lookupFile at h
  cases hl : lookupF fs.files p
  · rfl
  · rw [hl] at h
    cases h

theorem probeDest_shape (fs : Fs) (destDir : FPath) (stem sfx : String) :
    ∀ (fuel c : Nat) (p : FPath), probeDest fs destDir stem sfx fuel c = some p →
      (∃ s, p = destDir ++ [s]) ∧ pathExists fs p = false := by
  intro fuel
  induction fuel with
  | zero => intro c p h; cases h
  | succ f ih =>
    intro c p h
    simp only [probeDest] at h
    split at h
    · exact ih (c + 1) p h
    · rename_i hpe
      cases h
      exact ⟨⟨_, rfl⟩, by simpa using hpe⟩

theorem resolveDest_shape {fs : Fs} {destDir : FPath} {nm : String} {dest : FPath} {dup : Bool}
    (h : resolveDest fs destDir nm = some (dest, dup)) :
    (∃ s, dest = destDir ++ [s]) ∧ pathExists fs dest = false := by
  unfold resolveDest at h
  split at h
  · cases hp : probeDest fs destDir (stemOf nm) (suffixOf nm) (probeFuel fs) 1 with
    | none => rw [hp] at h; cases h
    | some q =>
      rw [hp] at h
      simp only [Option.map_some'] at h
      cases h
      exact probeDest_shape fs destDir (stemOf nm) (suffixOf nm) (probeFuel fs) 1 _ hp
  · rename_i hpe
    cases h
    exact ⟨⟨nm, rfl⟩, by simpa using hpe⟩

theorem moveFile_inv {fs fs' : Fs} {s d : FPath} (hdst : isDir fs d = false)
    (h : moveFile fs s d = some fs') :
    ∃ c, lookupFile fs s = some c ∧ isDir fs d.dropLast = true ∧
      fs' = ⟨(d, c) :: eraseFile (eraseFile fs.files s) d, fs.dirs⟩ := by
  unfold moveFile at h
  cases hl : lookupFile fs s with
  | none => rw [hl] at h; cases h
  | some c =>
    rw [hl] at h
    dsimp only at h
    rw [if_neg (by simp [hdst])] at h
    cases hb : isDir fs d.dropLast with
    | false =>
      rw [if_neg (by simp [hb])] at h
      cases h
    | true =>
      rw [if_pos (by simp [hb])] at h
      cases h
      exact ⟨c, rfl, rfl, rfl⟩

end FileOrg

namespace FileOrg

/-! ## Invariant preservation through one execute-loop iteration (C1) -/

theorem ExecInv.mkdirpStep {fs0 : Fs} {srcDir base : FPath} {fsI : Fs} {es : List MoveEntry}
    (inv : ExecInv fs0 srcDir base fsI es)
    {p : FPath} (hp : p.take base.length = base)
    {fs1 : Fs} (hmk : mkdirp fsI p = some fs1) :
    ExecInv fs0 srcDir base fs1 es := by
  have hf := mkdirp_files hmk
  have hd := mkdirp_dirs hmk
  refine ⟨?_, ?_, inv.src_shape, inv.dst_shape, inv.dst_nodup, inv.src_nodup,
    inv.src_was, inv.dst_fresh, ?_⟩
  · intro d hdm
    rw [hd]
    exact List.mem_append_right _ (inv.dirs_mono d hdm)
  · intro d hdm
    rw [hd] at hdm
    rcases List.mem_append.mp hdm with hin | hin
    · rcases ancestors_side hp d hin with h1 | h1
      · exact Or.inr (Or.inl h1)
      · exact Or.inr (Or.inr h1)
    · exact inv.dirs_side d hin
  · intro q
    rw [hf]
    exact inv.look q

theorem ExecInv.moveStep {fs0 : Fs} {srcDir base : FPath}
    (hnp1 : srcDir.take base.length ≠ base) (hnp2 : base.take srcDir.length ≠ srcDir)
    {fsI : Fs} {es : List MoveEntry}
    (inv : ExecInv fs0 srcDir base fsI es)
    {destDir : FPath} (hdd : destDir.take base.length = base)
    (hddl : base.length + 1 ≤ destDir.length)
    {nm : String} {f : FPath} (hf : f.dropLast = srcDir) (hfne : f ≠ [])
    {dest : FPath} {dup : Bool} (hres : resolveDest fsI destDir nm = some (dest, dup))
    {fs2 : Fs} (hmv : moveFile fsI f dest = some fs2) :
    ExecInv fs0 srcDir base fs2 (es ++ [⟨f, dest⟩]) := by
  obtain ⟨⟨s, hdsh⟩, hfresh⟩ := resolveDest_shape hres
  have hdtake : dest.take base.length = base := by rw [hdsh]; exact baseExt_append hdd [s]
  have hdlen : base.length + 2 ≤ dest.length := by
    rw [hdsh, List.length_append]
    simp only [List.length_cons, List.length_nil]
    omega
  obtain ⟨c, hc, hpar, hfs2⟩ := moveFile_inv (isDir_false_of_pathExists_false hfresh) hmv
  have hfind_f : es.find? (fun e => decide (e.destination = f)) = none := by
    rw [List.find?_eq_none]
    intro e he
    simp only [decide_eq_true_eq]
    intro hq
    exact srcChild_ne_baseExt hnp1 hnp2 hf hfne (inv.dst_shape e he).1 hq.symm
  have hlookf : lookupF fsI.files f = lookupF fs0.files f ∧ f ∉ es.map (fun e => e.source) := by
    have hl := inv.look f
    unfold execChar at hl
    rw [hfind_f] at hl
    dsimp only at hl
    by_cases hmem : f ∈ es.map (fun e => e.source)
    · rw [if_pos hmem] at hl
      unfold lookupFile at hc
      rw [hc] at hl
      cases hl
    · rw [if_neg hmem] at hl
      exact ⟨hl, hmem⟩
  have hfind_dest : es.find? (fun e => decide (e.destination = dest)) = none := by
    cases hfd : es.find? (fun e => decide (e.destination = dest)) with
    | none => rfl
    | some e0 =>
      have hmem := List.mem_of_find?_eq_some hfd
      have hw := inv.src_was e0 hmem
      have hl := inv.look dest
      unfold execChar at hl
      rw [hfd] at hl
      dsimp only at hl
      have hnone : lookupF fsI.files dest = none :=
        lookupF_none_of_isFile_false (isFile_false_of_pathExists_false hfresh)
      rw [hnone] at hl
      rw [← hl] at hw
      cases hw
  have hcf : lookupF fs0.files f = some c := by
    unfold lookupFile at hc
    rw [← hlookf.1]
    exact hc
  refine ⟨?_, ?_, ?_, ?_, ?_, ?_, ?_, ?_, ?_⟩
  · intro d hdm
    rw [hfs2]
    exact inv.dirs_mono d hdm
  · intro d hdm
    rw [hfs2] at hdm
    exact inv.dirs_side d hdm
  · intro e he
    rcases List.mem_append.mp he with h1 | h1
    · exact inv.src_shape e h1
    · rw [List.mem_singleton] at h1
      subst h1
      exact ⟨hf, hfne⟩
  · intro e he
    rcases List.mem_append.mp he with h1 | h1
    · exact inv.dst_shape e h1
    · rw [List.mem_singleton] at h1
      subst h1
      exact ⟨hdtake, hdlen⟩
  · rw [List.map_append]
    refine List.Nodup.append inv.dst_nodup (List.nodup_singleton _) ?_
    intro a ha hb
    simp only [List.map_cons, List.map_nil, List.mem_singleton] at hb
    subst hb
    obtain ⟨e, he, hde⟩ := List.mem_map.mp ha
    have hno := List.find?_eq_none.mp hfind_dest e he
    simp only [decide_eq_true_eq] at hno
    exact hno hde
  · rw [List.map_append]
    refine List.Nodup.append inv.src_nodup (List.nodup_singleton _) ?_
    intro a ha hb
    simp only [List.map_cons, List.map_nil, List.mem_singleton] at hb
    subst hb
    exact hlookf.2 ha
  · intro e he
    rcases List.mem_append.mp he with h1 | h1
    · exact inv.src_was e h1
    · rw [List.mem_singleton] at h1
      subst h1
      dsimp only
      rw [hcf]
      rfl
  · intro e he
    rcases List.mem_append.mp he with h1 | h1
    · exact inv.dst_fresh e h1
    · rw [List.mem_singleton] at h1
      subst h1
      dsimp only
      have hnofile : isFile fs0 dest = false := by
        have hl := inv.look dest
        unfold execChar at hl
        rw [hfind_dest] at hl
        dsimp only at hl
        have hnone : lookupF fsI.files dest = none :=
          lookupF_none_of_isFile_false (isFile_false_of_pathExists_false hfresh)
        rw [hnone] at hl
        by_cases hmem : dest ∈ es.map (fun e => e.source)
        · obtain ⟨e0, he0, hde0⟩ := List.mem_map.mp hmem
          obtain ⟨hs0, hn0⟩ := inv.src_shape e0 he0
          exact absurd hde0 (srcChild_ne_baseExt hnp1 hnp2 hs0 hn0 hdtake)
        · rw [if_neg hmem] at hl
          unfold isFile lookupFile
          rw [← hl]
          rfl
      have hnodir : isDir fs0 dest = false := by
        have hdI : isDir fsI dest = false := isDir_false_of_pathExists_false hfresh
        unfold isDir at hdI ⊢
        rcases Bool.or_eq_false_iff.mp hdI with ⟨h1, h2⟩
        rw [Bool.or_eq_false_iff]
        refine ⟨h1, ?_⟩
        rw [decide_eq_false_iff_not] at h2 ⊢
        intro hmem
        exact h2 (inv.dirs_mono dest hmem)
      unfold pathExists
      rw [hnofile, hnodir]
      rfl
  · intro p
    have hLHS : lookupF fs2.files p
        = if dest = p then some c else if f = p then none else lookupF fsI.files p := by
      rw [hfs2]
      dsimp only
      rw [lookupF_cons, lookupF_eraseFile, lookupF_eraseFile]
      by_cases h1 : dest = p
      · simp [h1]
      · simp [h1]
    have hfind1 : List.find? (fun e => decide (e.destination = p)) [(⟨f, dest⟩ : MoveEntry)]
        = if dest = p then some ⟨f, dest⟩ else none := by
      rw [find?_one]
      by_cases h1 : dest = p
      · rw [if_pos (by simp [h1]), if_pos h1]
      · rw [if_neg (by simp [h1]), if_neg h1]
    rw [hLHS]
    unfold execChar
    rw [List.find?_append, hfind1]
    by_cases h1 : dest = p
    · subst h1
      rw [if_pos rfl, if_pos rfl, hfind_dest]
      exact hcf.symm
    · rw [if_neg h1, if_neg h1, Option.or_none]
      cases hfd : es.find? (fun e => decide (e.destination = p)) with
      | some e0 =>
        dsimp only
        have he0 := List.mem_of_find?_eq_some hfd
        have hpe0 := List.find?_some hfd
        simp only [decide_eq_true_eq] at hpe0
        by_cases h2 : f = p
        · exfalso
          exact srcChild_ne_baseExt hnp1 hnp2 hf hfne (inv.dst_shape e0 he0).1
            (h2.trans hpe0.symm)
        · rw [if_neg h2]
          have hl := inv.look p
          unfold execChar at hl
          rw [hfd] at hl
          exact hl
      | none =>
        dsimp only
        have hl := inv.look p
        unfold execChar at hl
        rw [hfd] at hl
        dsimp only at hl
        by_cases h2 : f = p
        · subst h2
          rw [if_pos rfl, if_pos (by simp)]
        · rw [if_neg h2, hl]
          have hcond : (p ∈ (es ++ [(⟨f, dest⟩ : MoveEntry)]).map (fun e => e.source))
              ↔ p ∈ es.map (fun e => e.source) := by
            simp only [List.map_append, List.mem_append, List.map_cons, List.map_nil,
              List.mem_singleton]
            constructor
            · rintro (h | h)
              · exact h
              · exact absurd h.symm h2
            · exact Or.inl
          rw [if_congr hcond rfl rfl]

end FileOrg

namespace FileOrg

/-! ## The execute loops preserve the invariant (C1) -/

theorem genLoop_keeps_inv (fs0 : Fs) (srcDir base targetDir : FPath) (exts : List String)
    (hnp1 : srcDir.take base.length ≠ base) (hnp2 : base.take srcDir.length ≠ srcDir)
    (hdd : targetDir.take base.length = base) (hddl : base.length + 1 ≤ targetDir.length) :
    ∀ (l : List FPath) (fsI : Fs) (st : OrgStats) (prev esL : List MoveEntry),
      (∀ f ∈ l, f.dropLast = srcDir ∧ f ≠ []) →
      ExecInv fs0 srcDir base fsI (prev ++ esL) →
      (genLoop targetDir exts false l fsI st esL).stats.isSome = true →
      ExecInv fs0 srcDir base (genLoop targetDir exts false l fsI st esL).fs
        (prev ++ (genLoop targetDir exts false l fsI st esL).entries) := by
  intro l
  induction l with
  | nil =>
    intro fsI st prev esL hall inv hok
    exact inv
  | cons f rest ih =>
    intro fsI st prev esL hall inv hok
    obtain ⟨hf, hfne⟩ := hall f (List.mem_cons_self f rest)
    have hall' : ∀ g ∈ rest, g.dropLast = srcDir ∧ g ≠ [] :=
      fun g hg => hall g (List.mem_cons_of_mem f hg)
    simp only [genLoop] at hok ⊢
    by_cases hm : extMatches exts (lastName f) = true
    · rw [if_neg (not_not_intro hm), if_neg Bool.false_ne_true] at hok ⊢
      cases hres : resolveDest fsI targetDir (lastName f) with
      | none =>
        rw [hres] at hok
        cases hok
      | some pd =>
        obtain ⟨dest, dup⟩ := pd
        rw [hres] at hok
        dsimp only at hok ⊢
        cases hmv : moveFile fsI f dest with
        | none =>
          rw [hmv] at hok
          cases hok
        | some fs2 =>
          rw [hmv] at hok
          dsimp only at hok ⊢
          have inv2 : ExecInv fs0 srcDir base fs2 (prev ++ (esL ++ [⟨f, dest⟩])) := by
            rw [← List.append_assoc]
            exact inv.moveStep hnp1 hnp2 hdd hddl hf hfne hres hmv
          exact ih fs2 _ prev (esL ++ [⟨f, dest⟩]) hall' inv2 hok
    · rw [if_pos hm] at hok ⊢
      exact ih fsI st prev esL hall' inv hok

theorem orgLoop_keeps_inv (fs0 : Fs) (srcDir base targetDir : FPath) (policy : SubfolderPolicy)
    (hnp1 : srcDir.take base.length ≠ base) (hnp2 : base.take srcDir.length ≠ srcDir)
    (hdd : targetDir.take base.length = base) (hddl : base.length + 1 ≤ targetDir.length) :
    ∀ (l : List FPath) (fsI : Fs) (st : OrgStats) (prev esL : List MoveEntry),
      (∀ f ∈ l, f.dropLast = srcDir ∧ f ≠ []) →
      ExecInv fs0 srcDir base fsI (prev ++ esL) →
      (orgLoop policy targetDir false l fsI st esL).stats.isSome = true →
      ExecInv fs0 srcDir base (orgLoop policy targetDir false l fsI st esL).fs
        (prev ++ (orgLoop policy targetDir false l fsI st esL).entries) := by
  intro l
  induction l with
  | nil =>
    intro fsI st prev esL hall inv hok
    exact inv
  | cons f rest ih =>
    intro fsI st prev esL hall inv hok
    obtain ⟨hf, hfne⟩ := hall f (List.mem_cons_self f rest)
    have hall' : ∀ g ∈ rest, g.dropLast = srcDir ∧ g ≠ [] :=
      fun g hg => hall g (List.mem_cons_of_mem f hg)
    simp only [orgLoop] at hok ⊢
    cases hsub : subfolderFor policy fsI f with
    | none =>
      rw [hsub] at hok
      cases hok
    | some sub =>
      rw [hsub] at hok
      dsimp only at hok ⊢
      rw [if_neg Bool.false_ne_true] at hok ⊢
      have hdd2 : (joinRel targetDir sub).take base.length = base :=
        baseExt_append hdd (splitComponents sub)
      have hddl2 : base.length + 1 ≤ (joinRel targetDir sub).length := by
        unfold joinRel
        rw [List.length_append]
        omega
      cases hmk : mkdirp fsI (joinRel targetDir sub) with
      | none =>
        rw [hmk] at hok
        cases hok
      | some fs1 =>
        rw [hmk] at hok
        dsimp only at hok ⊢
        have inv1 : ExecInv fs0 srcDir base fs1 (prev ++ esL) := inv.mkdirpStep hdd2 hmk
        cases hres : resolveDest fs1 (joinRel targetDir sub) (lastName f) with
        | none =>
          rw [hres] at hok
          cases hok
        | some pd =>
          obtain ⟨dest, dup⟩ := pd
          rw [hres] at hok
          dsimp only at hok ⊢
          cases hmv : moveFile fs1 f dest with
          | none =>
            rw [hmv] at hok
            cases hok
          | some fs2 =>
            rw [hmv] at hok
            dsimp only at hok ⊢
            have inv2 : ExecInv fs0 srcDir base fs2 (prev ++ (esL ++ [⟨f, dest⟩])) := by
              rw [← List.append_assoc]
              exact inv1.moveStep hnp1 hnp2 hdd2 hddl2 hf hfne hres hmv
            exact ih fs2 _ prev (esL ++ [⟨f, dest⟩]) hall' inv2 hok

end FileOrg

namespace FileOrg

/-! ## From the loops to the whole execute pass (C1) -/

theorem listDirFiles_shape (fs : Fs) (dir : FPath) :
    ∀ f ∈ listDirFiles fs dir, f.dropLast = dir ∧ f ≠ [] := by
  intro f hf
  unfold listDirFiles at hf
  obtain ⟨e, he, hcond⟩ := List.mem_filterMap.mp hf
  by_cases hc : e.1.dropLast = dir ∧ e.1 ≠ []
  · rw [if_pos hc] at hcond
    cases hcond
    exact hc
  · rw [if_neg hc] at hcond
    cases hcond

theorem scanFiles_shape (fs : Fs) (srcDir : FPath) (exts : List String) :
    ∀ f ∈ scanFiles fs srcDir exts, f.dropLast = srcDir ∧ f ≠ [] := by
  intro f hf
  unfold scanFiles at hf
  split at hf
  · cases hf
  · exact listDirFiles_shape fs srcDir f (List.mem_of_mem_filter hf)

theorem ExecInv.init (fs0 : Fs) (srcDir base : FPath) : ExecInv fs0 srcDir base fs0 [] :=
  ⟨fun _ h => h, fun _ h => Or.inl h,
    fun e he => absurd he (List.not_mem_nil e), fun e he => absurd he (List.not_mem_nil e),
    List.nodup_nil, List.nodup_nil,
    fun e he => absurd he (List.not_mem_nil e), fun e he => absurd he (List.not_mem_nil e),
    fun p => (execChar_nil fs0 p).symm⟩

theorem ExecInv.toFacts {fs0 : Fs} {srcDir base : FPath} {fsI : Fs} {es : List MoveEntry}
    (inv : ExecInv fs0 srcDir base fsI es) : EntryFacts fs0 srcDir base es :=
  ⟨inv.src_shape, inv.dst_shape, inv.dst_nodup, inv.src_nodup, inv.src_was, inv.dst_fresh⟩

theorem runOneCat_keeps_inv (cfg : Config) (fs0 : Fs) (srcDir base : FPath)
    (hnp1 : srcDir.take base.length ≠ base) (hnp2 : base.take srcDir.length ≠ srcDir)
    (name : String) (ded : Bool) (htc : targetComps cfg name ded ≠ [])
    {fsI : Fs} {prev : List MoveEntry} (inv : ExecInv fs0 srcDir base fsI prev)
    (hok : (runOneCat cfg base srcDir false fsI name ded).stats.isSome = true) :
    ExecInv fs0 srcDir base (runOneCat cfg base srcDir false fsI name ded).fs
      (prev ++ (runOneCat cfg base srcDir false fsI name ded).entries) := by
  have hbase : base.take base.length = base := by simp
  unfold runOneCat at hok ⊢
  cases ded with
  | true =>
    rw [if_pos rfl] at hok ⊢
    unfold targetComps at htc
    rw [if_pos rfl] at htc
    unfold organizeDedicated at hok ⊢
    have inv0 : ExecInv fs0 srcDir base fsI (prev ++ []) := by
      rw [List.append_nil]
      exact inv
    exact orgLoop_keeps_inv fs0 srcDir base
      (joinRel base (effTargetDedicated cfg name)) (policyFor name) hnp1 hnp2
      (baseExt_append hbase (splitComponents (effTargetDedicated cfg name)))
      (by
        unfold joinRel
        rw [List.length_append]
        have := List.length_pos.mpr htc
        omega)
      (scanFiles fsI srcDir (cfg.extsLower name)) fsI ⟨0, 0, 0⟩ prev []
      (scanFiles_shape fsI srcDir (cfg.extsLower name)) inv0 hok
  | false =>
    rw [if_neg Bool.false_ne_true] at hok ⊢
    unfold targetComps at htc
    rw [if_neg Bool.false_ne_true] at htc
    unfold organizeGeneric at hok ⊢
    by_cases hsd : isDir fsI srcDir = true
    · rw [if_neg (not_not_intro hsd), if_neg Bool.false_ne_true] at hok ⊢
      cases hmk : mkdirp fsI
          (joinRel base ((((cfg.getCat name).getD ⟨[], none⟩).targetDir).getD name)) with
      | none =>
        rw [hmk] at hok
        cases hok
      | some fs1 =>
        rw [hmk] at hok
        dsimp only at hok ⊢
        have inv1 : ExecInv fs0 srcDir base fs1 prev :=
          inv.mkdirpStep (baseExt_append hbase _) hmk
        have inv0 : ExecInv fs0 srcDir base fs1 (prev ++ []) := by
          rw [List.append_nil]
          exact inv1
        exact genLoop_keeps_inv fs0 srcDir base
          (joinRel base ((((cfg.getCat name).getD ⟨[], none⟩).targetDir).getD name))
          (cfg.extsLower name) hnp1 hnp2
          (baseExt_append hbase _)
          (by
            unfold joinRel
            rw [List.length_append]
            have := List.length_pos.mpr htc
            omega)
          (listDirFiles fs1 srcDir) fs1 ⟨0, 0, 0⟩ prev []
          (listDirFiles_shape fs1 srcDir) inv0 hok
    · rw [if_pos hsd] at hok ⊢
      rw [List.append_nil]
      exact inv

theorem runCatList_keeps_inv (cfg : Config) (fs0 : Fs) (srcDir base : FPath)
    (hnp1 : srcDir.take base.length ≠ base) (hnp2 : base.take srcDir.length ≠ srcDir) :
    ∀ (runs : List (String × Bool)) (fsI : Fs) (moved would : Nat) (esAcc : List MoveEntry),
      (∀ nb ∈ runs, targetComps cfg nb.1 nb.2 ≠ []) →
      ExecInv fs0 srcDir base fsI esAcc →
      ∀ mv wd fsO esO,
        runCatList cfg base srcDir false runs fsI moved would esAcc = (some (mv, wd), fsO, esO) →
        ExecInv fs0 srcDir base fsO esO := by
  intro runs
  induction runs with
  | nil =>
    intro fsI moved would esAcc hall inv mv wd fsO esO hrun
    simp only [runCatList, Prod.mk.injEq] at hrun
    obtain ⟨_, h2, h3⟩ := hrun
    subst h2
    subst h3
    exact inv
  | cons nb rest ih =>
    intro fsI moved would esAcc hall inv mv wd fsO esO hrun
    obtain ⟨name, ded⟩ := nb
    simp only [runCatList] at hrun
    cases hst : (runOneCat cfg base srcDir false fsI name ded).stats with
    | none =>
      rw [hst] at hrun
      dsimp only at hrun
      simp only [Prod.mk.injEq] at hrun
      exact absurd hrun.1 (by simp)
    | some st =>
      rw [hst] at hrun
      dsimp only at hrun
      have hok : (runOneCat cfg base srcDir false fsI name ded).stats.isSome = true := by
        rw [hst]
        rfl
      have inv1 := runOneCat_keeps_inv cfg fs0 srcDir base hnp1 hnp2 name ded
        (hall (name, ded) (List.mem_cons_self _ _)) inv hok
      exact ih _ _ _ _ (fun nb2 h2 => hall nb2 (List.mem_cons_of_mem _ h2)) inv1
        mv wd fsO esO hrun

end FileOrg

namespace FileOrg

/-- A finished execute run with a persisted manifest leaves the filesystem in
the state described by `UndoInv` applied to the full record list, and its
records satisfy the well-formedness facts the undo phase consumes. -/
theorem organize_final (cfg : Config) (base srcDir : FPath) (cats : Option (List String))
    (fs0 : Fs)
    (hnp1 : srcDir.take base.length ≠ base) (hnp2 : base.take srcDir.length ≠ srcDir)
    (htc : ∀ nb ∈ catRuns cfg cats, targetComps cfg nb.1 nb.2 ≠ [])
    {st : Nat × Nat} {p : FPath}
    (hr : (fileOrganizerOrganize cfg base srcDir false cats fs0).stats = some st)
    (hsv : (fileOrganizerOrganize cfg base srcDir false cats fs0).saved = some p) :
    p = base ++ [manifestFileName] ∧
    EntryFacts fs0 srcDir base (fileOrganizerOrganize cfg base srcDir false cats fs0).entries ∧
    UndoInv fs0 srcDir base (base ++ [manifestFileName])
      (fileOrganizerOrganize cfg base srcDir false cats fs0).entries
      (fileOrganizerOrganize cfg base srcDir false cats fs0).fs
      (fileOrganizerOrganize cfg base srcDir false cats fs0).entries := by
  have hbase : base.take base.length = base := by simp
  unfold fileOrganizerOrganize at hr hsv ⊢
  rcases hrc : runCatList cfg base srcDir false (catRuns cfg cats) fs0 0 0 [] with ⟨ost, fs1, es⟩
  rw [hrc] at hr hsv
  cases ost with
  | none =>
    dsimp only at hr
    cases hr
  | some mw =>
    obtain ⟨moved, would⟩ := mw
    dsimp only at hr hsv ⊢
    by_cases hcond : false = false ∧ 0 < moved
    · rw [if_pos hcond] at hr hsv ⊢
      have inv1 : ExecInv fs0 srcDir base fs1 es :=
        runCatList_keeps_inv cfg fs0 srcDir base hnp1 hnp2 (catRuns cfg cats) fs0 0 0 []
          htc (ExecInv.init fs0 srcDir base) moved would fs1 es hrc
      cases hmk : mkdirp fs1 base with
      | none =>
        rw [hmk] at hsv
        cases hsv
      | some fs2 =>
        rw [hmk] at hr hsv
        dsimp only at hr hsv ⊢
        have inv2 : ExecInv fs0 srcDir base fs2 es := inv1.mkdirpStep hbase hmk
        cases hsm : saveManifest fs2 (base ++ [manifestFileName]) es with
        | none =>
          rw [hsm] at hsv
          cases hsv
        | some fs3 =>
          rw [hsm] at hr hsv
          dsimp only at hr hsv ⊢
          unfold saveManifest at hsm
          rw [show (base ++ [manifestFileName]).dropLast = base from by simp] at hsm
          cases hmk2 : mkdirp fs2 base with
          | none =>
            rw [hmk2] at hsm
            cases hsm
          | some fs2x =>
            rw [hmk2] at hsm
            dsimp only at hsm
            have inv3 : ExecInv fs0 srcDir base fs2x es := inv2.mkdirpStep hbase hmk2
            by_cases hdm : isDir fs2x (base ++ [manifestFileName]) = true
            · rw [if_pos hdm] at hsm
              cases hsm
            · rw [if_neg hdm] at hsm
              cases hsm
              refine ⟨(Option.some.inj hsv).symm, inv3.toFacts, ?_, ?_⟩
              · intro d hd
                rcases inv3.dirs_side d hd with h | h | h
                · exact Or.inl h
                · exact Or.inr (Or.inl h)
                · exact Or.inr (Or.inr (Or.inl h))
              · intro q
                rw [lookupF_cons, lookupF_eraseFile]
                by_cases hq : (base ++ [manifestFileName]) = q
                · simp [hq]
                · simp only [if_neg hq]
                  exact inv3.look q
    · rw [if_neg hcond] at hsv
      cases hsv

end FileOrg

namespace FileOrg

/-! ## The undo phase (C1) -/

theorem execChar_snoc_ne (fs0 : Fs) (es : List MoveEntry) (e : MoveEntry) (q : FPath)
    (h1 : e.destination ≠ q) (h2 : e.source ≠ q) :
    execChar fs0 (es ++ [e]) q = execChar fs0 es q := by
  unfold execChar
  rw [List.find?_append, find?_one, if_neg (by simp [h1]), Option.or_none]
  cases hfd : es.find? (fun x => decide (x.destination = q)) with
  | some x => rfl
  | none =>
    dsimp only
    have hcond : (q ∈ (es ++ [e]).map (fun x => x.source)) ↔ q ∈ es.map (fun x => x.source) := by
      simp only [List.map_append, List.mem_append, List.map_cons, List.map_nil,
        List.mem_singleton]
      constructor
      · rintro (h | h)
        · exact h
        · exact absurd h.symm h2
      · exact Or.inl
    rw [if_congr hcond rfl rfl]

theorem execChar_of_clear (fs0 : Fs) (es : List MoveEntry) (q : FPath)
    (h1 : ∀ x ∈ es, x.destination ≠ q) (h2 : q ∉ es.map (fun x => x.source)) :
    execChar fs0 es q = lookupF fs0.files q := by
  unfold execChar
  rw [List.find?_eq_none.mpr (fun x hx => by
    simp only [decide_eq_true_eq]
    exact h1 x hx)]
  dsimp only
  rw [if_neg h2]

theorem undo_one_step (fs0 : Fs) (srcDir base m : FPath) (full : List MoveEntry)
    (hnp1 : srcDir.take base.length ≠ base) (hnp2 : base.take srcDir.length ≠ srcDir)
    (hW1 : ∀ q ∈ fs0.files.map Prod.fst, q ∉ fs0.dirs)
    (hW2 : ∀ q ∈ ancestors srcDir, isFile fs0 q = false)
    (hmt : m.take base.length = base) (hml : m.length = base.length + 1)
    (facts : EntryFacts fs0 srcDir base full)
    (appl : List MoveEntry) (e : MoveEntry) (hsub : List.Sublist (appl ++ [e]) full)
    (fsU : Fs) (inv : UndoInv fs0 srcDir base m full fsU (appl ++ [e])) :
    ∃ fs2, undoStep fsU e = (fs2, true) ∧ UndoInv fs0 srcDir base m full fs2 appl := by
  have he_full : e ∈ full := hsub.subset (List.mem_append_right appl (List.mem_singleton.mpr rfl))
  obtain ⟨hes, hene⟩ := facts.src_shape e he_full
  obtain ⟨hdt, hdl⟩ := facts.dst_shape e he_full
  have hm_ne_dst : m ≠ e.destination := by
    intro he
    rw [he] at hml
    omega
  have hm_ne_src : m ≠ e.source :=
    fun h => srcChild_ne_baseExt hnp1 hnp2 hes hene hmt h.symm
  -- destinations recorded in `appl` never collide with e's (Nodup), so the
  -- applied-state characterization at e.destination finds exactly e
  have hnodupD : ((appl ++ [e]).map (fun x => x.destination)).Nodup :=
    facts.dst_nodup.sublist (hsub.map _)
  have hnodupS : ((appl ++ [e]).map (fun x => x.source)).Nodup :=
    facts.src_nodup.sublist (hsub.map _)
  have hfindA : appl.find? (fun x => decide (x.destination = e.destination)) = none := by
    rw [List.find?_eq_none]
    intro x hx
    simp only [decide_eq_true_eq]
    intro hxd
    rw [List.map_append] at hnodupD
    exact (List.nodup_append.mp hnodupD).2.2
      (List.mem_map.mpr ⟨x, hx, rfl⟩) (by simp [hxd])
  have hsrcA : e.source ∉ appl.map (fun x => x.source) := by
    intro hmem
    rw [List.map_append] at hnodupS
    exact (List.nodup_append.mp hnodupS).2.2 hmem (by simp)
  -- content sitting at e.destination in the pre-undo state
  obtain ⟨c, hc⟩ : ∃ c, lookupF fs0.files e.source = some c :=
    Option.isSome_iff_exists.mp (facts.src_was e he_full)
  have hlook_dst : lookupF fsU.files e.destination = some c := by
    have h4 := inv.look e.destination
    rw [if_neg hm_ne_dst] at h4
    unfold execChar at h4
    rw [List.find?_append, hfindA, find?_one, if_pos (by simp), Option.none_or] at h4
    dsimp only at h4
    rw [h4, hc]
  have hpe : pathExists fsU e.destination = true :=
    pathExists_of_isFile (by unfold isFile lookupFile; rw [hlook_dst]; rfl)
  -- the source's parent chain is clear, so mkdir succeeds
  have hclear : ∀ q ∈ ancestors srcDir, isFile fsU q = false := by
    intro q hq
    have hqp : srcDir.take q.length = q := ancestors_self_pref q hq
    have h4 := inv.look q
    rw [if_neg (dst_ne_srcPre hnp1 hmt hqp)] at h4
    rw [execChar_of_clear fs0 (appl ++ [e]) q
      (fun x hx => dst_ne_srcPre hnp1 (facts.dst_shape x (hsub.subset hx)).1 hqp)
      (fun hmem => by
        obtain ⟨x, hx, hxs⟩ := List.mem_map.mp hmem
        exact srcChild_ne_srcPre (facts.src_shape x (hsub.subset hx)).1
          (facts.src_shape x (hsub.subset hx)).2 hqp hxs)] at h4
    have h5 := hW2 q hq
    unfold isFile lookupFile at h5 ⊢
    rw [h4]
    exact h5
  have hmk : mkdirp fsU srcDir = some ⟨fsU.files, ancestors srcDir ++ fsU.dirs⟩ :=
    mkdirp_of_clear hclear
  -- the move back: e.source is not a directory, its parent is
  have hsrc_not_dir : isDir (⟨fsU.files, ancestors srcDir ++ fsU.dirs⟩ : Fs) e.source = false := by
    unfold isDir
    rw [Bool.or_eq_false_iff]
    refine ⟨by simp [hene], ?_⟩
    rw [decide_eq_false_iff_not]
    intro hmem
    rcases List.mem_append.mp hmem with hin | hin
    · exact srcChild_ne_srcPre hes hene (ancestors_self_pref e.source hin) rfl
    · rcases inv.dirs_side e.source hin with h | h | h | h
      · have hkey : e.source ∈ fs0.files.map Prod.fst :=
          mem_keys_of_lookupF (facts.src_was e he_full)
        exact hW1 e.source hkey h
      · exact srcChild_ne_basePre hnp2 hes hene h rfl
      · exact srcChild_ne_baseExt hnp1 hnp2 hes hene h rfl
      · exact srcChild_ne_srcPre hes hene h rfl
  have hpar_dir : isDir (⟨fsU.files, ancestors srcDir ++ fsU.dirs⟩ : Fs) e.source.dropLast
      = true := by
    rw [hes]
    unfold isDir
    by_cases hsn : srcDir = []
    · simp [hsn]
    · have : srcDir ∈ ancestors srcDir ++ fsU.dirs :=
        List.mem_append_left _ (self_mem_ancestors hsn)
      simp [this]
  have hmv : moveFile (⟨fsU.files, ancestors srcDir ++ fsU.dirs⟩ : Fs) e.destination e.source
      = some ⟨(e.source, c) :: eraseFile (eraseFile fsU.files e.destination) e.source,
          ancestors srcDir ++ fsU.dirs⟩ :=
    moveFile_std hlook_dst hsrc_not_dir hpar_dir
  refine ⟨⟨(e.source, c) :: eraseFile (eraseFile fsU.files e.destination) e.source,
      ancestors srcDir ++ fsU.dirs⟩, ?_, ?_⟩
  · unfold undoStep
    rw [if_neg (by simp [hpe]), hes, hmk]
    dsimp only
    rw [hmv]
  · refine ⟨?_, ?_⟩
    · intro d hd
      rcases List.mem_append.mp hd with hin | hin
      · exact Or.inr (Or.inr (Or.inr (ancestors_self_pref d hin)))
      · exact inv.dirs_side d hin
    · intro q
      rw [lookupF_cons, lookupF_eraseFile, lookupF_eraseFile]
      by_cases hq1 : e.source = q
      · subst hq1
        rw [if_pos rfl, if_neg hm_ne_src]
        rw [execChar_of_clear fs0 appl e.source
          (fun x hx => fun hxe =>
            srcChild_ne_baseExt hnp1 hnp2 hes hene
              (facts.dst_shape x (hsub.subset (List.mem_append_left _ hx))).1 hxe.symm)
          hsrcA]
        rw [hc]
      · rw [if_neg hq1, if_neg hq1]
        by_cases hq2 : e.destination = q
        · subst hq2
          rw [if_pos rfl, if_neg hm_ne_dst]
          rw [execChar_of_clear fs0 appl e.destination
            (fun x hx => List.find?_eq_none.mp hfindA x hx ∘ decide_eq_true)
            (fun hmem => by
              obtain ⟨x, hx, hxs⟩ := List.mem_map.mp hmem
              exact srcChild_ne_baseExt hnp1 hnp2
                (facts.src_shape x (hsub.subset (List.mem_append_left _ hx))).1
                (facts.src_shape x (hsub.subset (List.mem_append_left _ hx))).2
                hdt hxs)]
          exact (lookupF_none_of_isFile_false
            (isFile_false_of_pathExists_false (facts.dst_fresh e he_full))).symm
        · rw [if_neg hq2]
          have h4 := inv.look q
          rw [execChar_snoc_ne fs0 appl e q hq2 hq1] at h4
          exact h4

end FileOrg

namespace FileOrg

/-- Unwinding the still-applied records (processed in reverse order) restores
every entry, fails none, and ends in the state where no record is applied. -/
theorem undoPhase (fs0 : Fs) (srcDir base m : FPath) (full : List MoveEntry)
    (hnp1 : srcDir.take base.length ≠ base) (hnp2 : base.take srcDir.length ≠ srcDir)
    (hW1 : ∀ q ∈ fs0.files.map Prod.fst, q ∉ fs0.dirs)
    (hW2 : ∀ q ∈ ancestors srcDir, isFile fs0 q = false)
    (hmt : m.take base.length = base) (hml : m.length = base.length + 1)
    (facts : EntryFacts fs0 srcDir base full) :
    ∀ (l : List MoveEntry), List.Sublist l.reverse full →
      ∀ (fsU : Fs) (r f : Nat), UndoInv fs0 srcDir base m full fsU l.reverse →
        ∃ fsR, undoLoop l fsU r f = ⟨fsR, r + l.length, f⟩ ∧
          UndoInv fs0 srcDir base m full fsR [] := by
  intro l
  induction l with
  | nil =>
    intro _ fsU r f inv
    exact ⟨fsU, by simp [undoLoop], inv⟩
  | cons e l' ih =>
    intro hsub fsU r f inv
    rw [List.reverse_cons] at hsub inv
    obtain ⟨fs2, hstep, inv2⟩ := undo_one_step fs0 srcDir base m full hnp1 hnp2 hW1 hW2
      hmt hml facts l'.reverse e hsub fsU inv
    have hsub' : List.Sublist l'.reverse full :=
      List.Sublist.trans (List.sublist_append_left l'.reverse [e]) hsub
    obtain ⟨fsR, hrun, invR⟩ := ih hsub' fs2 (r + 1) f inv2
    refine ⟨fsR, ?_, invR⟩
    simp only [undoLoop]
    rw [hstep]
    dsimp only
    rw [hrun]
    have harith : r + 1 + l'.length = r + (e :: l').length := by
      simp only [List.length_cons]
      omega
    rw [harith]

end FileOrg

namespace FileOrg

/-- C1: the round-trip law.  For an execute-mode batch that returns normally
and persists its ledger (`stats = some st`, `saved = some p`), over a
well-formed starting filesystem (no path is both a file and a directory, no
regular file blocks the source directory's ancestor chain), with the source
directory and the target root not nested inside one another and every
selected category naming a nonempty target, running undo on the persisted
ledger path succeeds, counts every recorded move as restored and none as
failed, and returns the file map to its exact original state at every path
other than the ledger file itself — every moved file is back at its original
source path with identical content.  (Directories created during execution
remain, as the claim allows.) -/
theorem c1_round_trip (cfg : Config) (base srcDir : FPath) (cats : Option (List String))
    (fs0 : Fs) (st : Nat × Nat) (p : FPath)
    (hW1 : ∀ q ∈ fs0.files.map Prod.fst, q ∉ fs0.dirs)
    (hW2 : ∀ q ∈ ancestors srcDir, isFile fs0 q = false)
    (hnp1 : srcDir.take base.length ≠ base)
    (hnp2 : base.take srcDir.length ≠ srcDir)
    (htc : ∀ nb ∈ catRuns cfg cats, targetComps cfg nb.1 nb.2 ≠ [])
    (hr : (fileOrganizerOrganize cfg base srcDir false cats fs0).stats = some st)
    (hsv : (fileOrganizerOrganize cfg base srcDir false cats fs0).saved = some p) :
    ∃ u, fileOrganizerUndo (fileOrganizerOrganize cfg base srcDir false cats fs0).fs p = some u
      ∧ u.restored = (fileOrganizerOrganize cfg base srcDir false cats fs0).entries.length
      ∧ u.failed = 0
      ∧ ∀ q, q ≠ base ++ [manifestFileName] →
          lookupF u.fs.files q = lookupF fs0.files q := by
  obtain ⟨hp, facts, inv0⟩ := organize_final cfg base srcDir cats fs0 hnp1 hnp2 htc hr hsv
  subst hp
  have hmt : (base ++ [manifestFileName]).take base.length = base :=
    baseExt_append (by simp) [manifestFileName]
  have hml : (base ++ [manifestFileName]).length = base.length + 1 := by simp
  obtain ⟨fsR, hrun, invR⟩ := undoPhase fs0 srcDir base (base ++ [manifestFileName])
    (fileOrganizerOrganize cfg base srcDir false cats fs0).entries hnp1 hnp2 hW1 hW2 hmt hml
    facts
    (fileOrganizerOrganize cfg base srcDir false cats fs0).entries.reverse
    (by rw [List.reverse_reverse])
    (fileOrganizerOrganize cfg base srcDir false cats fs0).fs 0 0
    (by rw [List.reverse_reverse]; exact inv0)
  have hload : loadManifest (fileOrganizerOrganize cfg base srcDir false cats fs0).fs
      (base ++ [manifestFileName])
      = some (fileOrganizerOrganize cfg base srcDir false cats fs0).entries := by
    unfold loadManifest lookupFile
    rw [inv0.look, if_pos rfl]
  have hundo : fileOrganizerUndo (fileOrganizerOrganize cfg base srcDir false cats fs0).fs
      (base ++ [manifestFileName])
      = some (undoMoves (fileOrganizerOrganize cfg base srcDir false cats fs0).fs
          (fileOrganizerOrganize cfg base srcDir false cats fs0).entries) := by
    unfold fileOrganizerUndo
    rw [hload]
    rfl
  refine ⟨_, hundo, ?_, ?_, ?_⟩
  · unfold undoMoves
    rw [hrun]
    simp
  · unfold undoMoves
    rw [hrun]
  · intro q hq
    unfold undoMoves
    rw [hrun]
    have hlk := invR.look q
    rw [if_neg (fun h => hq h.symm), execChar_nil] at hlk
    exact hlk

end FileOrg

namespace FileOrg

/-- Witness for C1: the end-to-end scenario — two photos moved out of `src`
into the `tgt/Photos` tree and a manifest saved — undoes completely: both
entries restored, none failed, and every path except the manifest file holds
exactly what it held before the batch. -/
theorem c1_witness :
    ∃ u, fileOrganizerUndo runE2E.fs (["tgt"] ++ [manifestFileName]) = some u
      ∧ u.restored = runE2E.entries.length
      ∧ u.failed = 0
      ∧ ∀ q, q ≠ ["tgt"] ++ [manifestFileName] →
          lookupF u.fs.files q = lookupF fsE2E.files q :=
  c1_round_trip cfgE2E ["tgt"] ["src"] none fsE2E (2, 0) (["tgt"] ++ [manifestFileName])
    (by decide) (by decide) (by decide) (by decide) (by decide) (by decide) (by decide)

end FileOrg
